import Mathlib

/-!
Verification development for the `echo` server's two core subsystems:

* the chunked resource-upload protocol and tracker
  (`src/services/upload_tracker.rs`), and
* the Gladiator HTML content pipeline
  (`src/gladiator.rs`, `src/gladiator/pipeline.rs`,
  `src/gladiator/pipeline/cons.rs`).

Rust code is shallowly embedded: bytes are `List Nat`, machine integers are
`Nat` (the quantities involved — chunk offsets, lengths, counters — are far
below their 32/64-bit bounds in every statement below; where a bound matters,
for example the big-endian `u32` length prefixes of the wire format, it appears
as an explicit hypothesis).  External collaborator crates (`sha1`, `infer`,
`unicode_segmentation`, `html5ever` fragment parsing, the extension registry's
leptos renderer) are parameters of the definitions that call them, exactly at
the call boundary the Rust code uses them.
-/

set_option maxHeartbeats 1000000

deriving instance DecidableEq for Except

namespace EchoSpec

/-! ## Upload tracker (src/services/upload_tracker.rs)

`accept_chunk_stream` and `merge` of `UploadTracker`.  Concurrency primitives
(the per-chunk `Semaphore(1)`, the exclusive file mutex, atomic orderings) are
not modelled: every claim below is about one sequential call. -/

/-- Decoded `ResourceUploadHeader` protobuf message (`models/resource.rs`).
`accept_chunk_stream` receives the header frame as raw bytes and prost-decodes
it; the embedding carries the already-decoded message (prost is external). -/
structure ResourceUploadHeader where
  uploadSessionId : List Nat
  chunkBytesOffset : Nat
  chunkLength : Nat
  chunkSha1 : List Nat
deriving DecidableEq

/-- In-memory state of `UploadTracker` (upload_tracker.rs:232-248).  The named
temp file is modelled by its byte contents `tmpFile` (created size-set to
`fileSize`); `seen` is the chunk bitset, `receivedBytes` the atomic counter. -/
structure UploadTracker where
  sessionId : List Nat
  fileMimeType : String
  fileExt : Option String
  fileSize : Nat
  fileSha1 : List Nat
  chunkSize : Nat
  seen : List Bool
  receivedBytes : Nat
  tmpFile : List Nat
deriving DecidableEq

/-- Error cases of `UploadTrackerError` / `ConsistencyViolationError`
(upload_tracker.rs:165-227) reached by the modelled operations.  Payloads are
kept where a claim mentions them. -/
inductive UploadTrackerError where
  | sessionIdMismatch (expected got : List Nat)
  | chunkOffsetOutOfBounds (offset size : Nat)
  | invalidChunkLength (offset chunkSize chunkLength : Nat)
  | chunkNotAligned (offset chunkSize : Nat)
  | chunkSha1Mismatch (offset : Nat)
  | failedInferMimeType
  | invalidMimeType (expected got : String)
  | bytesRetained (receivedBytes : Nat)
  | seenBytesRetained (undone : List Nat)
  | fileSha1Mismatch
  | uuidError
  | unreachableStreamPath (site : String)
  | unexceptedResourceStreamEOF
  | protocolError
deriving DecidableEq

/-- The `ConsistencyViolationError` variants among `UploadTrackerError`. -/
def isConsistencyError : UploadTrackerError → Bool
  | .sessionIdMismatch _ _ => true
  | .chunkOffsetOutOfBounds _ _ => true
  | .invalidChunkLength _ _ _ => true
  | .chunkNotAligned _ _ => true
  | .chunkSha1Mismatch _ => true
  | .failedInferMimeType => true
  | .invalidMimeType _ _ => true
  | .bytesRetained _ => true
  | .seenBytesRetained _ => true
  | .fileSha1Mismatch => true
  | _ => false

/-- One item of the stream fed to `accept_chunk_stream`
(`Result<ResourceUploadFrame, ResourceUploadProtocolError>`): a frame, or a
protocol error surfaced by the codec.  The header arrives prost-decoded (see
`ResourceUploadHeader`). -/
inductive AcceptFrame where
  | header (h : ResourceUploadHeader)
  | body (bytes : List Nat)
  | fin
  | protoErr
deriving DecidableEq

/-- `UploadTrackerCtx` (upload_tracker.rs:250-256).  The running `Sha1` is
modelled by the accumulated bytes `hashed`; finalisation applies the hash
parameter to them.  The semaphore permit is not modelled. -/
structure UploadTrackerCtx where
  header : ResourceUploadHeader
  hashed : List Nat
  chunkIdx : Nat
  chunkInnerOffset : Nat
deriving DecidableEq

/-- `UploadTrackerACState` (upload_tracker.rs:258-262).  The `Option` around
the ctx is dropped: the source only ever stores `Some` (the `End` arm takes
the ctx out and immediately stores `Done(Some(ctx))`). -/
inductive UploadTrackerACState where
  | waitingHeader
  | receivingBody (ctx : UploadTrackerCtx)
  | doneSt (ctx : UploadTrackerCtx)
deriving DecidableEq

/-- `UploadTracker::expected_chunk_len` (upload_tracker.rs:325-328). -/
def expectedChunkLen (t : UploadTracker) (offset : Nat) : Nat :=
  min t.chunkSize (t.fileSize - offset)

/-- `UploadTracker::chunk_idx` (upload_tracker.rs:304-323). -/
def chunkIdxOf (t : UploadTracker) (off : Nat) : Except UploadTrackerError Nat :=
  if t.fileSize ≤ off then .error (.chunkOffsetOutOfBounds off t.fileSize)
  else if ¬ (off % t.chunkSize = 0) then .error (.chunkNotAligned off t.chunkSize)
  else .ok (off / t.chunkSize)

/-- Positional write (`FileExt::write_at` / `seek_write`) into the modelled
temp file. -/
def writeAt (file : List Nat) (off : Nat) (bytes : List Nat) : List Nat :=
  file.take off ++ bytes ++ file.drop (off + bytes.length)

/-- One step of the `accept_chunk_stream` state machine
(upload_tracker.rs:337-460): the `match (&mut state, frame)` body for a single
received item.  `sha1Fn` finalises the running per-chunk SHA-1, `inferMime`
is `infer::get` returning `(mime type, file extension)`. -/
def acceptStep (sha1Fn : List Nat → List Nat)
    (inferMime : List Nat → Option (String × String))
    (t : UploadTracker) (st : UploadTrackerACState) (f : AcceptFrame) :
    Except UploadTrackerError (UploadTracker × UploadTrackerACState) :=
  match st, f with
  | .waitingHeader, .header h =>
      if h.uploadSessionId ≠ t.sessionId then
        -- the error path re-decodes the offending bytes as a Uuid, which
        -- itself fails unless they are 16 bytes long
        if h.uploadSessionId.length = 16 then
          .error (.sessionIdMismatch t.sessionId h.uploadSessionId)
        else .error .uuidError
      else if h.chunkLength = 0 then
        .error (.invalidChunkLength h.chunkBytesOffset t.chunkSize h.chunkLength)
      else if t.fileSize < h.chunkBytesOffset + h.chunkLength then
        .error (.chunkOffsetOutOfBounds (h.chunkBytesOffset + h.chunkLength) t.fileSize)
      else if h.chunkLength ≠ expectedChunkLen t h.chunkBytesOffset then
        .error (.invalidChunkLength h.chunkBytesOffset t.chunkSize h.chunkLength)
      else
        (chunkIdxOf t h.chunkBytesOffset).map fun idx =>
          (t, .receivingBody ⟨h, [], idx, 0⟩)
  | .receivingBody ctx, .body chunk =>
      (if ctx.chunkIdx = 0 ∧ ctx.chunkInnerOffset = 0 then
         match inferMime chunk with
         | some me =>
             if me.1 ≠ t.fileMimeType then
               .error (.invalidMimeType t.fileMimeType me.1)
             else .ok (some me.2)
         | none => .error .failedInferMimeType
       else (.ok none : Except UploadTrackerError (Option String))).bind fun extUpd =>
        .ok ({ t with
                fileExt := match extUpd with
                  | some e => some e
                  | none => t.fileExt,
                tmpFile := writeAt t.tmpFile
                  (ctx.header.chunkBytesOffset + ctx.chunkInnerOffset) chunk },
             .receivingBody { ctx with
                hashed := ctx.hashed ++ chunk,
                chunkInnerOffset := ctx.chunkInnerOffset + chunk.length })
  | .receivingBody ctx, .fin =>
      if ctx.chunkInnerOffset ≠ ctx.header.chunkLength then
        .error (.invalidChunkLength ctx.header.chunkBytesOffset t.chunkSize
          ctx.header.chunkLength)
      else if sha1Fn ctx.hashed ≠ ctx.header.chunkSha1 then
        .error (.chunkSha1Mismatch ctx.header.chunkBytesOffset)
      else
        .ok ({ t with
                seen := t.seen.set ctx.chunkIdx true,
                receivedBytes := t.receivedBytes + ctx.header.chunkLength },
             .doneSt ctx)
  | _, .protoErr => .error .protocolError
  | _, _ => .error (.unreachableStreamPath "pattern matching")

/-- The `loop`/`stream.next()` driver of `accept_chunk_stream`
(upload_tracker.rs:334-469) over a finite stream of items.  The returned
tracker is the tracker as mutated so far (writes into the temp file and the
inferred extension persist across a failed call; `seen` / `received_bytes`
are only touched by a successful `End`). -/
def acceptGo (sha1Fn : List Nat → List Nat)
    (inferMime : List Nat → Option (String × String)) :
    UploadTracker → UploadTrackerACState → List AcceptFrame →
    UploadTracker × Except UploadTrackerError Unit
  | t, st, [] =>
      match st with
      | .doneSt _ => (t, .ok ())
      | _ => (t, .error .unexceptedResourceStreamEOF)
  | t, st, f :: fs =>
      match acceptStep sha1Fn inferMime t st f with
      | .ok (t', st') => acceptGo sha1Fn inferMime t' st' fs
      | .error e => (t, .error e)

/-- `UploadTracker::accept_chunk_stream` on a finite frame stream. -/
def acceptChunkStream (sha1Fn : List Nat → List Nat)
    (inferMime : List Nat → Option (String × String))
    (t : UploadTracker) (frames : List AcceptFrame) :
    UploadTracker × Except UploadTrackerError Unit :=
  acceptGo sha1Fn inferMime t .waitingHeader frames

/-- Indices of the unset bits of the seen bitset, in increasing order
(`BitVec::iter_zeros().collect()`). -/
def zeroIdxs (bs : List Bool) : List Nat :=
  (List.range bs.length).filter (fun i => bs.getD i false = false)

/-- `UploadTracker::merge` (upload_tracker.rs:473-501).  The whole-file hash
over the streamed temp file is `sha1Fn t.tmpFile`; fsync / rewind and the
final-path computation have no observable effect here. -/
def merge (sha1Fn : List Nat → List Nat) (t : UploadTracker) :
    Except UploadTrackerError Unit :=
  if zeroIdxs t.seen ≠ [] then .error (.seenBytesRetained (zeroIdxs t.seen))
  else if t.receivedBytes ≠ t.fileSize then .error (.bytesRetained t.receivedBytes)
  else if sha1Fn t.tmpFile ≠ t.fileSha1 then .error .fileSha1Mismatch
  else .ok ()

/-- Sum of the chunk lengths of the chunks whose seen bit is set: the
right-hand side of the invariant `received_bytes == Σ seen chunk lengths`. -/
def seenLenSum (t : UploadTracker) : Nat :=
  (((List.range t.seen.length).filter (fun i => t.seen.getD i false)).map
    (fun i => expectedChunkLen t (i * t.chunkSize))).sum

/-! Concrete single-chunk upload session used to evaluate the retry
behaviour: one chunk of one byte, declared size 1, chunk size 1. -/

/-- A fresh one-chunk tracker. -/
def c1Tracker : UploadTracker :=
  { sessionId := List.replicate 16 0, fileMimeType := "text/plain", fileExt := none,
    fileSize := 1, fileSha1 := [1], chunkSize := 1, seen := [false],
    receivedBytes := 0, tmpFile := [0] }

/-- The (well-formed) header of the only chunk of `c1Tracker`. -/
def c1Header : ResourceUploadHeader :=
  { uploadSessionId := List.replicate 16 0, chunkBytesOffset := 0,
    chunkLength := 1, chunkSha1 := [5] }

/-- Delivery of that chunk: header, one body byte, end of stream. -/
def c1Frames : List AcceptFrame := [.header c1Header, .body [5], .fin]

/-- Hash-function instantiation for concrete evaluations (the identity on the
accumulated bytes; the claims hold for every hash function, the concrete
statements only need some computable instantiation). -/
def idHash : List Nat → List Nat := fun l => l

/-- `infer::get` instantiation whose inference matches `c1Tracker`'s declared
MIME type. -/
def c1Infer : List Nat → Option (String × String) := fun _ => some ("text/plain", "txt")

/-- Claim C1: accepting the same well-formed chunk twice does NOT produce the
same end state as accepting it once.  Both accepts succeed and set the seen
bit, but `received_bytes` is `fetch_add`ed by each successful accept
(upload_tracker.rs:451-452), so after the retry it is 2 while the sum of the
chunk lengths of the seen chunks is 1 — the invariant
`received_bytes == Σ seen chunk lengths` is broken by a retry. -/
theorem uploadTracker_retry_double_counts :
    (acceptChunkStream idHash c1Infer c1Tracker c1Frames).2 = .ok () ∧
    (acceptChunkStream idHash c1Infer c1Tracker c1Frames).1.receivedBytes = 1 ∧
    (acceptChunkStream idHash c1Infer c1Tracker c1Frames).1.seen = [true] ∧
    (acceptChunkStream idHash c1Infer
      (acceptChunkStream idHash c1Infer c1Tracker c1Frames).1 c1Frames).2 = .ok () ∧
    (acceptChunkStream idHash c1Infer
      (acceptChunkStream idHash c1Infer c1Tracker c1Frames).1 c1Frames).1.seen = [true] ∧
    (acceptChunkStream idHash c1Infer
      (acceptChunkStream idHash c1Infer c1Tracker c1Frames).1 c1Frames).1.receivedBytes = 2 ∧
    seenLenSum (acceptChunkStream idHash c1Infer
      (acceptChunkStream idHash c1Infer c1Tracker c1Frames).1 c1Frames).1 = 1 ∧
    seenLenSum c1Tracker = 0 := by
  decide

/-- Membership of the zero-bit index list: exactly the in-range indices whose
seen bit is unset. -/
theorem mem_zeroIdxs (bs : List Bool) (i : Nat) :
    i ∈ zeroIdxs bs ↔ i < bs.length ∧ bs.getD i false = false := by
  simp [zeroIdxs, List.mem_filter, List.mem_range]

/-- If every in-range bit is set, the zero-bit index list is empty. -/
theorem zeroIdxs_eq_nil (bs : List Bool)
    (h : ∀ i, i < bs.length → bs.getD i false = true) : zeroIdxs bs = [] := by
  apply List.eq_nil_iff_forall_not_mem.mpr
  intro i hi
  rcases (mem_zeroIdxs bs i).mp hi with ⟨hlen, hbit⟩
  have hbt := h i hlen
  simp [List.getD] at hbt
  simp [hbt] at hbit

/-- Claim C6: `merge()` error cases, in the order the source checks them:
some unset seen bit yields `SeenBytesRetained` carrying exactly the unset
indices; else a byte-count mismatch yields `BytesRetained`; else a whole-file
hash mismatch yields `FileSha1Mismatch`; else `Ok(())`. -/
theorem merge_error_cases (sha1Fn : List Nat → List Nat) (t : UploadTracker) :
    ((∃ i, i < t.seen.length ∧ t.seen.getD i false = false) →
      merge sha1Fn t = .error (.seenBytesRetained (zeroIdxs t.seen))) ∧
    (∀ i, i ∈ zeroIdxs t.seen ↔ i < t.seen.length ∧ t.seen.getD i false = false) ∧
    ((∀ i, i < t.seen.length → t.seen.getD i false = true) →
      t.receivedBytes ≠ t.fileSize →
      merge sha1Fn t = .error (.bytesRetained t.receivedBytes)) ∧
    ((∀ i, i < t.seen.length → t.seen.getD i false = true) →
      t.receivedBytes = t.fileSize → sha1Fn t.tmpFile ≠ t.fileSha1 →
      merge sha1Fn t = .error .fileSha1Mismatch) ∧
    ((∀ i, i < t.seen.length → t.seen.getD i false = true) →
      t.receivedBytes = t.fileSize → sha1Fn t.tmpFile = t.fileSha1 →
      merge sha1Fn t = .ok ()) := by
  refine ⟨?_, mem_zeroIdxs t.seen, ?_, ?_, ?_⟩
  · rintro ⟨i, hlen, hbit⟩
    have hne : zeroIdxs t.seen ≠ [] :=
      List.ne_nil_of_mem ((mem_zeroIdxs t.seen i).mpr ⟨hlen, hbit⟩)
    simp [merge, hne]
  · intro hall hrb
    simp [merge, zeroIdxs_eq_nil t.seen hall, hrb]
  · intro hall hrb hsha
    simp [merge, zeroIdxs_eq_nil t.seen hall, hrb, hsha]
  · intro hall hrb hsha
    simp [merge, zeroIdxs_eq_nil t.seen hall, hrb, hsha]

/-! ### Characterisation of `accept_chunk_stream` on one delivered chunk -/

/-- The header-side verifications of `accept_chunk_stream` (claim C5's list):
session id match, offset alignment, offset in bounds, and chunk length equal
to `min(chunk_size, declared_size − offset)`. -/
def headerOk (t : UploadTracker) (h : ResourceUploadHeader) : Prop :=
  h.uploadSessionId = t.sessionId ∧
  h.chunkBytesOffset % t.chunkSize = 0 ∧
  h.chunkBytesOffset < t.fileSize ∧
  h.chunkLength = expectedChunkLen t h.chunkBytesOffset

/-- MIME-inference success over a run of body frames: every body frame that
arrives while the chunk index is 0 and the inner offset is still 0 (i.e. all
earlier frames of chunk 0 were empty) must infer conclusively to the declared
MIME type. -/
def mimeOkFor (inferMime : List Nat → Option (String × String)) (mime : String)
    (chunkIdx inner : Nat) (bs : List (List Nat)) : Prop :=
  ∀ j, j < bs.length → chunkIdx = 0 → inner + ((bs.take j).flatten).length = 0 →
    ∃ ext, inferMime (bs.getD j []) = some (mime, ext)

/-- The full success condition for one chunk delivered as
`Header h, Body bs…, End`: the header checks, the delivered body totalling
exactly `chunk_length`, the per-chunk SHA-1 matching, and (for chunk 0)
conclusive, matching MIME inference. -/
def chunkAcceptCond (sha1Fn : List Nat → List Nat)
    (inferMime : List Nat → Option (String × String))
    (t : UploadTracker) (h : ResourceUploadHeader) (bs : List (List Nat)) : Prop :=
  headerOk t h ∧
  bs.flatten.length = h.chunkLength ∧
  sha1Fn bs.flatten = h.chunkSha1 ∧
  mimeOkFor inferMime t.fileMimeType (h.chunkBytesOffset / t.chunkSize) 0 bs

/-- Unfold one successful step of the `accept_chunk_stream` loop. -/
theorem acceptGo_cons_ok {sha1Fn : List Nat → List Nat}
    {inferMime : List Nat → Option (String × String)}
    {t t' : UploadTracker} {st st' : UploadTrackerACState} {f : AcceptFrame}
    {fs : List AcceptFrame}
    (h : acceptStep sha1Fn inferMime t st f = .ok (t', st')) :
    acceptGo sha1Fn inferMime t st (f :: fs) = acceptGo sha1Fn inferMime t' st' fs := by
  rw [acceptGo, h]

/-- Unfold one failing step of the `accept_chunk_stream` loop. -/
theorem acceptGo_cons_err {sha1Fn : List Nat → List Nat}
    {inferMime : List Nat → Option (String × String)}
    {t : UploadTracker} {st : UploadTrackerACState} {f : AcceptFrame}
    {fs : List AcceptFrame} {e : UploadTrackerError}
    (h : acceptStep sha1Fn inferMime t st f = .error e) :
    acceptGo sha1Fn inferMime t st (f :: fs) = (t, .error e) := by
  rw [acceptGo, h]

theorem mimeOkFor_cons (inferMime : List Nat → Option (String × String))
    (mime : String) (idx inner : Nat) (b : List Nat) (bs : List (List Nat)) :
    mimeOkFor inferMime mime idx inner (b :: bs) ↔
      ((idx = 0 → inner = 0 → ∃ ext, inferMime b = some (mime, ext)) ∧
        mimeOkFor inferMime mime idx (inner + b.length) bs) := by
  constructor
  · intro H
    refine ⟨fun h0 hi => ?_, fun j hj h0 hz => ?_⟩
    · have := H 0 (by simp) h0 (by simp [hi])
      simpa using this
    · have := H (j + 1) (by simpa using hj) h0 ?_
      · simpa using this
      · simp only [List.take_succ_cons, List.flatten_cons, List.length_append]
        omega
  · rintro ⟨h1, h2⟩ j hj h0 hz
    match j, hj with
    | 0, _ =>
        simp only [List.take_zero, List.flatten_nil, List.length_nil, Nat.add_zero] at hz
        simpa using h1 h0 hz
    | j + 1, hj =>
        have hz' : (inner + b.length) + ((bs.take j).flatten).length = 0 := by
          simp only [List.take_succ_cons, List.flatten_cons, List.length_append] at hz
          omega
        simpa using h2 j (by simpa using hj) h0 hz'

/-- The body-frame run of `accept_chunk_stream`: if MIME inference succeeds at
every triggered frame the run passes through, accumulating the running hash
and the inner offset and leaving `seen` / `received_bytes` untouched;
otherwise the call fails with a MIME consistency error, again leaving
`seen` / `received_bytes` untouched. -/
theorem acceptGo_bodies (sha1Fn : List Nat → List Nat)
    (inferMime : List Nat → Option (String × String)) (bs : List (List Nat)) :
    ∀ (t : UploadTracker) (ctx : UploadTrackerCtx) (rest : List AcceptFrame),
    (mimeOkFor inferMime t.fileMimeType ctx.chunkIdx ctx.chunkInnerOffset bs →
      ∃ t', acceptGo sha1Fn inferMime t (.receivingBody ctx) (bs.map .body ++ rest) =
              acceptGo sha1Fn inferMime t'
                (.receivingBody
                  { ctx with
                    hashed := ctx.hashed ++ bs.flatten
                    chunkInnerOffset := ctx.chunkInnerOffset + bs.flatten.length }) rest ∧
            t'.seen = t.seen ∧ t'.receivedBytes = t.receivedBytes ∧
            t'.fileMimeType = t.fileMimeType ∧ t'.chunkSize = t.chunkSize ∧
            t'.sessionId = t.sessionId ∧ t'.fileSize = t.fileSize) ∧
    (¬ mimeOkFor inferMime t.fileMimeType ctx.chunkIdx ctx.chunkInnerOffset bs →
      ∃ t' e, acceptGo sha1Fn inferMime t (.receivingBody ctx) (bs.map .body ++ rest) =
              (t', .error e) ∧
            t'.seen = t.seen ∧ t'.receivedBytes = t.receivedBytes ∧
            isConsistencyError e = true) := by
  induction bs with
  | nil =>
      intro t ctx rest
      constructor
      · intro _
        exact ⟨t, by simp, rfl, rfl, rfl, rfl, rfl, rfl⟩
      · intro hno
        exact absurd (fun j hj => by simp at hj) hno
  | cons b bs ih =>
      intro t ctx rest
      have hshift := mimeOkFor_cons inferMime t.fileMimeType ctx.chunkIdx
        ctx.chunkInnerOffset b bs
      by_cases htr : ctx.chunkIdx = 0 ∧ ctx.chunkInnerOffset = 0
      · -- the MIME-inference branch is taken for this frame
        cases him : inferMime b with
        | none =>
            have hnot : ¬ mimeOkFor inferMime t.fileMimeType ctx.chunkIdx
                ctx.chunkInnerOffset (b :: bs) := by
              rw [hshift]
              rintro ⟨h1, -⟩
              rcases h1 htr.1 htr.2 with ⟨ext, hext⟩
              simp [him] at hext
            refine ⟨fun hok => absurd hok hnot, fun _ => ?_⟩
            refine ⟨t, .failedInferMimeType, ?_, rfl, rfl, rfl⟩
            simp [acceptGo, acceptStep, htr.1, htr.2, him, Except.bind]
        | some me =>
            by_cases hm : me.1 = t.fileMimeType
            · -- inference conclusive and matching: the write goes through
              have hstep : acceptStep sha1Fn inferMime t (.receivingBody ctx) (.body b) =
                  .ok ({ t with
                          fileExt := some me.2
                          tmpFile := writeAt t.tmpFile
                            (ctx.header.chunkBytesOffset + ctx.chunkInnerOffset) b },
                       .receivingBody { ctx with
                          hashed := ctx.hashed ++ b
                          chunkInnerOffset := ctx.chunkInnerOffset + b.length }) := by
                simp [acceptStep, htr.1, htr.2, him, hm, Except.bind]
              have hhead : ∃ ext, inferMime b = some (t.fileMimeType, ext) :=
                ⟨me.2, by rw [him, ← hm]⟩
              have ihh := ih
                { t with
                  fileExt := some me.2
                  tmpFile := writeAt t.tmpFile
                    (ctx.header.chunkBytesOffset + ctx.chunkInnerOffset) b }
                { ctx with
                  hashed := ctx.hashed ++ b
                  chunkInnerOffset := ctx.chunkInnerOffset + b.length } rest
              constructor
              · intro hok
                have htail := (hshift.mp hok).2
                obtain ⟨t', heq, hseen, hrecv, hmime, hcsz, hsid, hfsz⟩ :=
                  ihh.1 (by simpa using htail)
                refine ⟨t', ?_, hseen, hrecv, hmime, hcsz, hsid, hfsz⟩
                rw [List.map_cons, List.cons_append, acceptGo_cons_ok hstep]
                simpa only [List.flatten_cons, List.length_append, List.append_assoc,
                  Nat.add_assoc] using heq
              · intro hno
                have htail : ¬ mimeOkFor inferMime t.fileMimeType ctx.chunkIdx
                    (ctx.chunkInnerOffset + b.length) bs := by
                  intro hc
                  exact hno (hshift.mpr ⟨fun _ _ => hhead, hc⟩)
                obtain ⟨t', e, heq, hseen, hrecv, hcons⟩ :=
                  ihh.2 (by simpa using htail)
                refine ⟨t', e, ?_, hseen, hrecv, hcons⟩
                rw [List.map_cons, List.cons_append, acceptGo_cons_ok hstep]
                exact heq
            · -- inference conclusive but mismatching: InvalidMimeType
              have hnot : ¬ mimeOkFor inferMime t.fileMimeType ctx.chunkIdx
                  ctx.chunkInnerOffset (b :: bs) := by
                rw [hshift]
                rintro ⟨h1, -⟩
                rcases h1 htr.1 htr.2 with ⟨ext, hext⟩
                rw [him] at hext
                exact hm (by simpa using congrArg (fun o => (o.getD ("", "")).1) hext)
              refine ⟨fun hok => absurd hok hnot, fun _ => ?_⟩
              refine ⟨t, .invalidMimeType t.fileMimeType me.1, ?_, rfl, rfl, rfl⟩
              simp [acceptGo, acceptStep, htr.1, htr.2, him, hm, Except.bind]
      · -- no MIME check on this frame
        have hstep : acceptStep sha1Fn inferMime t (.receivingBody ctx) (.body b) =
            .ok ({ t with
                    tmpFile := writeAt t.tmpFile
                      (ctx.header.chunkBytesOffset + ctx.chunkInnerOffset) b },
                 .receivingBody { ctx with
                    hashed := ctx.hashed ++ b
                    chunkInnerOffset := ctx.chunkInnerOffset + b.length }) := by
          simp [acceptStep, htr, Except.bind]
        have hhead : ctx.chunkIdx = 0 → ctx.chunkInnerOffset = 0 →
            ∃ ext, inferMime b = some (t.fileMimeType, ext) := by
          intro h0 hi
          exact absurd ⟨h0, hi⟩ htr
        have ihh := ih
          { t with
            tmpFile := writeAt t.tmpFile
              (ctx.header.chunkBytesOffset + ctx.chunkInnerOffset) b }
          { ctx with
            hashed := ctx.hashed ++ b
            chunkInnerOffset := ctx.chunkInnerOffset + b.length } rest
        constructor
        · intro hok
          have htail := (hshift.mp hok).2
          obtain ⟨t', heq, hseen, hrecv, hmime, hcsz, hsid, hfsz⟩ :=
            ihh.1 (by simpa using htail)
          refine ⟨t', ?_, hseen, hrecv, hmime, hcsz, hsid, hfsz⟩
          rw [List.map_cons, List.cons_append, acceptGo_cons_ok hstep]
          simpa only [List.flatten_cons, List.length_append, List.append_assoc,
            Nat.add_assoc] using heq
        · intro hno
          have htail : ¬ mimeOkFor inferMime t.fileMimeType ctx.chunkIdx
              (ctx.chunkInnerOffset + b.length) bs := by
            intro hc
            exact hno (hshift.mpr ⟨hhead, hc⟩)
          obtain ⟨t', e, heq, hseen, hrecv, hcons⟩ :=
            ihh.2 (by simpa using htail)
          refine ⟨t', e, ?_, hseen, hrecv, hcons⟩
          rw [List.map_cons, List.cons_append, acceptGo_cons_ok hstep]
          exact heq


/-- When the header-side verifications hold, the header step succeeds and
yields the fresh per-chunk context. -/
theorem acceptStep_header_ok (sha1Fn : List Nat → List Nat)
    (inferMime : List Nat → Option (String × String))
    (t : UploadTracker) (h : ResourceUploadHeader)
    (hcs : 0 < t.chunkSize) (hok : headerOk t h) :
    acceptStep sha1Fn inferMime t .waitingHeader (.header h) =
      .ok (t, .receivingBody ⟨h, [], h.chunkBytesOffset / t.chunkSize, 0⟩) := by
  obtain ⟨hsid, hal, hlt, hlen⟩ := hok
  have h2 : ¬ (expectedChunkLen t h.chunkBytesOffset = 0) := by
    unfold expectedChunkLen
    omega
  have h3 : ¬ (t.fileSize < h.chunkBytesOffset + expectedChunkLen t h.chunkBytesOffset) := by
    unfold expectedChunkLen
    omega
  simp [acceptStep, hsid, hlen, h2, h3, chunkIdxOf, Nat.not_le.mpr hlt, hal, Except.map]

/-- When some header-side verification fails, the header step fails with the
corresponding error (a consistency error, except that a malformed — not
16-byte — mismatching session id fails Uuid decoding instead). -/
theorem acceptStep_header_err (sha1Fn : List Nat → List Nat)
    (inferMime : List Nat → Option (String × String))
    (t : UploadTracker) (h : ResourceUploadHeader)
    (hcs : 0 < t.chunkSize) (hbad : ¬ headerOk t h) :
    ∃ e, acceptStep sha1Fn inferMime t .waitingHeader (.header h) = .error e ∧
      (h.uploadSessionId.length = 16 → isConsistencyError e = true) ∧
      (isConsistencyError e = true ∨ e = .uuidError) := by
  by_cases hsid : h.uploadSessionId = t.sessionId
  · by_cases hL0 : h.chunkLength = 0
    · exact ⟨.invalidChunkLength h.chunkBytesOffset t.chunkSize h.chunkLength,
        by simp [acceptStep, hsid, hL0], fun _ => rfl, Or.inl rfl⟩
    · by_cases hB : t.fileSize < h.chunkBytesOffset + h.chunkLength
      · exact ⟨.chunkOffsetOutOfBounds (h.chunkBytesOffset + h.chunkLength) t.fileSize,
          by simp [acceptStep, hsid, hL0, hB], fun _ => rfl, Or.inl rfl⟩
      · by_cases hE : h.chunkLength = expectedChunkLen t h.chunkBytesOffset
        · have hlt : h.chunkBytesOffset < t.fileSize := by omega
          have hal : ¬ (h.chunkBytesOffset % t.chunkSize = 0) := by
            intro hal
            exact hbad ⟨hsid, hal, hlt, hE⟩
          have h2 : ¬ (expectedChunkLen t h.chunkBytesOffset = 0) := by
            rw [← hE]
            exact hL0
          have h3 : ¬ (t.fileSize < h.chunkBytesOffset + expectedChunkLen t h.chunkBytesOffset) := by
            rw [← hE]
            exact hB
          refine ⟨.chunkNotAligned h.chunkBytesOffset t.chunkSize, ?_, fun _ => rfl, Or.inl rfl⟩
          simp [acceptStep, hsid, hE, h2, h3, chunkIdxOf, Nat.not_le.mpr hlt, hal,
            Except.map]
        · exact ⟨.invalidChunkLength h.chunkBytesOffset t.chunkSize h.chunkLength,
            by simp [acceptStep, hsid, hL0, hB, hE], fun _ => rfl, Or.inl rfl⟩
  · by_cases h16 : h.uploadSessionId.length = 16
    · exact ⟨.sessionIdMismatch t.sessionId h.uploadSessionId,
        by simp [acceptStep, hsid, h16], fun _ => rfl, Or.inl rfl⟩
    · exact ⟨.uuidError, by simp [acceptStep, hsid, h16], fun hh => absurd hh h16,
        Or.inr rfl⟩

/-- Successful `End` step: delivered total and per-chunk hash both check out,
the seen bit is set and `received_bytes` is increased. -/
theorem acceptStep_fin_ok (sha1Fn : List Nat → List Nat)
    (inferMime : List Nat → Option (String × String))
    (t : UploadTracker) (ctx : UploadTrackerCtx)
    (hlen : ctx.chunkInnerOffset = ctx.header.chunkLength)
    (hsha : sha1Fn ctx.hashed = ctx.header.chunkSha1) :
    acceptStep sha1Fn inferMime t (.receivingBody ctx) .fin =
      .ok ({ t with
              seen := t.seen.set ctx.chunkIdx true
              receivedBytes := t.receivedBytes + ctx.header.chunkLength },
           .doneSt ctx) := by
  simp [acceptStep, hlen, hsha]

/-- Failing `End` step: a short/overlong delivery or hash mismatch yields the
corresponding consistency error. -/
theorem acceptStep_fin_err (sha1Fn : List Nat → List Nat)
    (inferMime : List Nat → Option (String × String))
    (t : UploadTracker) (ctx : UploadTrackerCtx)
    (hbad : ¬ (ctx.chunkInnerOffset = ctx.header.chunkLength ∧
                sha1Fn ctx.hashed = ctx.header.chunkSha1)) :
    ∃ e, acceptStep sha1Fn inferMime t (.receivingBody ctx) .fin = .error e ∧
      isConsistencyError e = true := by
  by_cases h1 : ctx.chunkInnerOffset = ctx.header.chunkLength
  · have h2 : ¬ (sha1Fn ctx.hashed = ctx.header.chunkSha1) := fun hh => hbad ⟨h1, hh⟩
    exact ⟨.chunkSha1Mismatch ctx.header.chunkBytesOffset,
      by simp [acceptStep, h1, h2], rfl⟩
  · exact ⟨.invalidChunkLength ctx.header.chunkBytesOffset t.chunkSize
      ctx.header.chunkLength, by simp [acceptStep, h1], rfl⟩

/-- Exhausted stream in the `Done` state: success. -/
theorem acceptGo_done_nil (sha1Fn : List Nat → List Nat)
    (inferMime : List Nat → Option (String × String))
    (t : UploadTracker) (ctx : UploadTrackerCtx) :
    acceptGo sha1Fn inferMime t (.doneSt ctx) [] = (t, .ok ()) := by
  simp [acceptGo]

/-- Any further item in the `Done` state is out of order: the catch-all match
arm reports an unreachable stream path (a codec error item reports the
protocol error instead). -/
theorem acceptGo_done_cons (sha1Fn : List Nat → List Nat)
    (inferMime : List Nat → Option (String × String))
    (t : UploadTracker) (ctx : UploadTrackerCtx) (f : AcceptFrame)
    (fs : List AcceptFrame) :
    ∃ e, acceptGo sha1Fn inferMime t (.doneSt ctx) (f :: fs) = (t, .error e) ∧
      (e = .unreachableStreamPath "pattern matching" ∨ e = .protocolError) := by
  cases f with
  | header h => exact ⟨_, by simp [acceptGo, acceptStep], Or.inl rfl⟩
  | body b => exact ⟨_, by simp [acceptGo, acceptStep], Or.inl rfl⟩
  | fin => exact ⟨_, by simp [acceptGo, acceptStep], Or.inl rfl⟩
  | protoErr => exact ⟨_, by simp [acceptGo, acceptStep], Or.inr rfl⟩

/-- Full characterisation of `accept_chunk_stream` on one delivered chunk
(`Header h, Body bs…, End`): it succeeds iff `chunkAcceptCond` holds; on
success the seen bit is set and `received_bytes` increased by the chunk
length; on failure both are untouched and the error is a consistency error
(or, for a malformed mismatching session id, a Uuid decoding error). -/
theorem accept_single_chunk (sha1Fn : List Nat → List Nat)
    (inferMime : List Nat → Option (String × String))
    (t : UploadTracker) (h : ResourceUploadHeader) (bs : List (List Nat))
    (hcs : 0 < t.chunkSize) :
    ((acceptChunkStream sha1Fn inferMime t (.header h :: (bs.map .body ++ [.fin]))).2
        = .ok () ↔ chunkAcceptCond sha1Fn inferMime t h bs) ∧
    (chunkAcceptCond sha1Fn inferMime t h bs →
      (acceptChunkStream sha1Fn inferMime t (.header h :: (bs.map .body ++ [.fin]))).1.seen
          = t.seen.set (h.chunkBytesOffset / t.chunkSize) true ∧
      (acceptChunkStream sha1Fn inferMime t
          (.header h :: (bs.map .body ++ [.fin]))).1.receivedBytes
          = t.receivedBytes + h.chunkLength) ∧
    (∀ e, (acceptChunkStream sha1Fn inferMime t
            (.header h :: (bs.map .body ++ [.fin]))).2 = .error e →
      (acceptChunkStream sha1Fn inferMime t (.header h :: (bs.map .body ++ [.fin]))).1.seen
          = t.seen ∧
      (acceptChunkStream sha1Fn inferMime t
          (.header h :: (bs.map .body ++ [.fin]))).1.receivedBytes = t.receivedBytes ∧
      (isConsistencyError e = true ∨ e = .uuidError) ∧
      (h.uploadSessionId.length = 16 → isConsistencyError e = true)) := by
  by_cases hH : headerOk t h
  · have hhdr := acceptStep_header_ok sha1Fn inferMime t h hcs hH
    by_cases hM : mimeOkFor inferMime t.fileMimeType (h.chunkBytesOffset / t.chunkSize) 0 bs
    · obtain ⟨t', heq, hseen, hrecv, hmime, hcsz, hsid', hfsz⟩ :=
        (acceptGo_bodies sha1Fn inferMime bs t
          ⟨h, [], h.chunkBytesOffset / t.chunkSize, 0⟩ [.fin]).1 hM
      by_cases hT : bs.flatten.length = h.chunkLength
      · by_cases hS : sha1Fn bs.flatten = h.chunkSha1
        · have hfin := acceptStep_fin_ok sha1Fn inferMime t'
            ⟨h, [] ++ bs.flatten, h.chunkBytesOffset / t.chunkSize, 0 + bs.flatten.length⟩
            (by simpa using hT) (by simpa using hS)
          have hres : acceptChunkStream sha1Fn inferMime t
              (.header h :: (bs.map .body ++ [.fin])) =
              ({ t' with
                  seen := t'.seen.set (h.chunkBytesOffset / t.chunkSize) true
                  receivedBytes := t'.receivedBytes + h.chunkLength }, .ok ()) := by
            rw [acceptChunkStream, acceptGo_cons_ok hhdr, heq,
              acceptGo_cons_ok hfin, acceptGo_done_nil]
          refine ⟨?_, fun _ => ?_, fun e he => ?_⟩
          · rw [hres]
            exact ⟨fun _ => ⟨hH, hT, hS, hM⟩, fun _ => rfl⟩
          · rw [hres]
            exact ⟨by simp [hseen], by simp [hrecv]⟩
          · rw [hres] at he
            simp at he
        · obtain ⟨e', hfe, hce⟩ := acceptStep_fin_err sha1Fn inferMime t'
            ⟨h, [] ++ bs.flatten, h.chunkBytesOffset / t.chunkSize, 0 + bs.flatten.length⟩
            (by simpa using fun hl hsh => hS hsh)
          have hres : acceptChunkStream sha1Fn inferMime t
              (.header h :: (bs.map .body ++ [.fin])) = (t', .error e') := by
            rw [acceptChunkStream, acceptGo_cons_ok hhdr, heq, acceptGo_cons_err hfe]
          refine ⟨?_, fun hc => absurd hc.2.2.1 hS, fun e he => ?_⟩
          · rw [hres]
            exact ⟨fun hh => by simp at hh, fun hc => absurd hc.2.2.1 hS⟩
          · rw [hres] at he ⊢
            cases he
            exact ⟨hseen, hrecv, Or.inl hce, fun _ => hce⟩
      · obtain ⟨e', hfe, hce⟩ := acceptStep_fin_err sha1Fn inferMime t'
          ⟨h, [] ++ bs.flatten, h.chunkBytesOffset / t.chunkSize, 0 + bs.flatten.length⟩
          (by simpa using fun hl _ => hT hl)
        have hres : acceptChunkStream sha1Fn inferMime t
            (.header h :: (bs.map .body ++ [.fin])) = (t', .error e') := by
          rw [acceptChunkStream, acceptGo_cons_ok hhdr, heq, acceptGo_cons_err hfe]
        refine ⟨?_, fun hc => absurd hc.2.1 hT, fun e he => ?_⟩
        · rw [hres]
          exact ⟨fun hh => by simp at hh, fun hc => absurd hc.2.1 hT⟩
        · rw [hres] at he ⊢
          cases he
          exact ⟨hseen, hrecv, Or.inl hce, fun _ => hce⟩
    · obtain ⟨t', e', heq, hseen, hrecv, hcons⟩ :=
        (acceptGo_bodies sha1Fn inferMime bs t
          ⟨h, [], h.chunkBytesOffset / t.chunkSize, 0⟩ [.fin]).2 hM
      have hres : acceptChunkStream sha1Fn inferMime t
          (.header h :: (bs.map .body ++ [.fin])) = (t', .error e') := by
        rw [acceptChunkStream, acceptGo_cons_ok hhdr, heq]
      refine ⟨?_, fun hc => absurd hc.2.2.2 hM, fun e he => ?_⟩
      · rw [hres]
        exact ⟨fun hh => by simp at hh, fun hc => absurd hc.2.2.2 hM⟩
      · rw [hres] at he ⊢
        cases he
        exact ⟨hseen, hrecv, Or.inl hcons, fun _ => hcons⟩
  · obtain ⟨e', hfe, h16, hdisj⟩ := acceptStep_header_err sha1Fn inferMime t h hcs hH
    have hres : acceptChunkStream sha1Fn inferMime t
        (.header h :: (bs.map .body ++ [.fin])) = (t, .error e') := by
      rw [acceptChunkStream, acceptGo_cons_err hfe]
    refine ⟨?_, fun hc => absurd hc.1 hH, fun e he => ?_⟩
    · rw [hres]
      exact ⟨fun hh => by simp at hh, fun hc => absurd hc.1 hH⟩
    · rw [hres] at he ⊢
      cases he
      exact ⟨rfl, rfl, hdisj, h16⟩

/-- A successful body step always stays in the `ReceivingBody` state. -/
theorem acceptStep_body_shape {sha1Fn : List Nat → List Nat}
    {inferMime : List Nat → Option (String × String)}
    {t t' : UploadTracker} {ctx : UploadTrackerCtx} {b : List Nat}
    {st' : UploadTrackerACState}
    (hstep : acceptStep sha1Fn inferMime t (.receivingBody ctx) (.body b) =
      .ok (t', st')) :
    ∃ ctx', st' = .receivingBody ctx' := by
  by_cases htr : ctx.chunkIdx = 0 ∧ ctx.chunkInnerOffset = 0
  · cases him : inferMime b with
    | none => simp [acceptStep, htr.1, htr.2, him, Except.bind] at hstep
    | some me =>
        by_cases hm : me.1 = t.fileMimeType
        · simp [acceptStep, htr.1, htr.2, him, hm, Except.bind] at hstep
          exact ⟨_, hstep.2.symm⟩
        · simp [acceptStep, htr.1, htr.2, him, hm, Except.bind] at hstep
  · simp [acceptStep, htr, Except.bind] at hstep
    exact ⟨_, hstep.2.symm⟩

/-- A successful header step keeps the tracker and enters `ReceivingBody`. -/
theorem acceptStep_header_shape {sha1Fn : List Nat → List Nat}
    {inferMime : List Nat → Option (String × String)}
    {t t' : UploadTracker} {h : ResourceUploadHeader}
    {st' : UploadTrackerACState}
    (hstep : acceptStep sha1Fn inferMime t .waitingHeader (.header h) =
      .ok (t', st')) :
    ∃ ctx, st' = .receivingBody ctx := by
  simp only [acceptStep] at hstep
  split_ifs at hstep
  cases hidx : chunkIdxOf t h.chunkBytesOffset with
  | error e =>
      rw [hidx] at hstep
      simp [Except.map] at hstep
  | ok idx =>
      rw [hidx] at hstep
      simp [Except.map] at hstep
      exact ⟨_, hstep.2.symm⟩

/-- A run from `ReceivingBody` only succeeds on a stream of the shape
`Body…, End` (nothing out of order, nothing after the `End`). -/
theorem acceptGo_receivingBody_ok_shape (sha1Fn : List Nat → List Nat)
    (inferMime : List Nat → Option (String × String)) :
    ∀ (fs : List AcceptFrame) (t : UploadTracker) (ctx : UploadTrackerCtx),
    (acceptGo sha1Fn inferMime t (.receivingBody ctx) fs).2 = .ok () →
    ∃ bs : List (List Nat), fs = bs.map .body ++ [.fin] := by
  intro fs
  induction fs with
  | nil =>
      intro t ctx hok
      simp [acceptGo] at hok
  | cons f fs ih =>
      intro t ctx hok
      cases f with
      | header h => simp [acceptGo, acceptStep] at hok
      | protoErr => simp [acceptGo, acceptStep] at hok
      | body b =>
          cases hstep : acceptStep sha1Fn inferMime t (.receivingBody ctx) (.body b) with
          | error e =>
              rw [acceptGo_cons_err hstep] at hok
              simp at hok
          | ok p =>
              obtain ⟨t2, st2⟩ := p
              obtain ⟨ctx', hctx'⟩ := acceptStep_body_shape hstep
              subst hctx'
              rw [acceptGo_cons_ok hstep] at hok
              obtain ⟨bs, hbs⟩ := ih t2 ctx' hok
              exact ⟨b :: bs, by rw [hbs]; rfl⟩
      | fin =>
          by_cases hfin : ctx.chunkInnerOffset = ctx.header.chunkLength ∧
              sha1Fn ctx.hashed = ctx.header.chunkSha1
          · rw [acceptGo_cons_ok
              (acceptStep_fin_ok sha1Fn inferMime t ctx hfin.1 hfin.2)] at hok
            cases fs with
            | nil => exact ⟨[], rfl⟩
            | cons f' fs' =>
                obtain ⟨e, he, -⟩ := acceptGo_done_cons sha1Fn inferMime _ ctx f' fs'
                rw [he] at hok
                simp at hok
          · obtain ⟨e, he, -⟩ := acceptStep_fin_err sha1Fn inferMime t ctx hfin
            rw [acceptGo_cons_err he] at hok
            simp at hok

/-- `accept_chunk_stream` only succeeds on a stream of the shape
`Header, Body…, End`. -/
theorem acceptChunkStream_ok_shape (sha1Fn : List Nat → List Nat)
    (inferMime : List Nat → Option (String × String))
    (t : UploadTracker) (fs : List AcceptFrame)
    (hok : (acceptChunkStream sha1Fn inferMime t fs).2 = .ok ()) :
    ∃ h bs, fs = .header h :: (List.map .body bs ++ [.fin]) := by
  cases fs with
  | nil => simp [acceptChunkStream, acceptGo] at hok
  | cons f fs' =>
      cases f with
      | body b => simp [acceptChunkStream, acceptGo, acceptStep] at hok
      | fin => simp [acceptChunkStream, acceptGo, acceptStep] at hok
      | protoErr => simp [acceptChunkStream, acceptGo, acceptStep] at hok
      | header h =>
          cases hstep : acceptStep sha1Fn inferMime t .waitingHeader (.header h) with
          | error e =>
              rw [acceptChunkStream, acceptGo_cons_err hstep] at hok
              simp at hok
          | ok p =>
              obtain ⟨t2, st2⟩ := p
              obtain ⟨ctx, hctx⟩ := acceptStep_header_shape hstep
              subst hctx
              rw [acceptChunkStream, acceptGo_cons_ok hstep] at hok
              obtain ⟨bs, hbs⟩ :=
                acceptGo_receivingBody_ok_shape sha1Fn inferMime fs' t2 ctx hok
              exact ⟨h, bs, by rw [hbs]⟩

/-- `infer::get` instantiation that is inconclusive on every input. -/
def c5InferNone : List Nat → Option (String × String) := fun _ => none

/-- Claim C5 (counterexample): every verification listed by the claim holds
for this delivery of chunk 0 — session id, alignment, bounds, exact length,
delivered total, per-chunk hash — yet the chunk is NOT marked received: MIME
inference on the first body bytes of chunk 0 is inconclusive
(upload_tracker.rs:389-407), the call fails with `FailedInferMimeType` and
the seen bit stays unset.  The claim's "if and only if" is missing the MIME
condition. -/
theorem accept_chunk_mark_iff_counterexample :
    c1Header.uploadSessionId = c1Tracker.sessionId ∧
    c1Header.chunkBytesOffset % c1Tracker.chunkSize = 0 ∧
    c1Header.chunkBytesOffset < c1Tracker.fileSize ∧
    c1Header.chunkLength = expectedChunkLen c1Tracker c1Header.chunkBytesOffset ∧
    ([[5]] : List (List Nat)).flatten.length = c1Header.chunkLength ∧
    idHash ([[5]] : List (List Nat)).flatten = c1Header.chunkSha1 ∧
    (acceptChunkStream idHash c5InferNone c1Tracker c1Frames).2 =
      .error .failedInferMimeType ∧
    (acceptChunkStream idHash c5InferNone c1Tracker c1Frames).1.seen = [false] ∧
    (acceptChunkStream idHash c5InferNone c1Tracker c1Frames).1.receivedBytes = 0 := by
  decide

/-- Claim C5 (amended): for a chunk delivered as `Header h, Body…, End` with a
well-formed (16-byte) session id in the header, `accept_chunk_stream` marks
the chunk received — returns `Ok`, sets the seen bit, adds the chunk length
to `received_bytes` — if and only if the header verifications, the delivered
body total, the per-chunk SHA-1 AND (for chunk 0) conclusive, matching MIME
inference all hold; on any failure it returns the corresponding consistency
error and leaves the seen bit and `received_bytes` unchanged. -/
theorem accept_chunk_mark_iff_amended (sha1Fn : List Nat → List Nat)
    (inferMime : List Nat → Option (String × String))
    (t : UploadTracker) (h : ResourceUploadHeader) (bs : List (List Nat))
    (hcs : 0 < t.chunkSize) (hsid : h.uploadSessionId.length = 16) :
    ((acceptChunkStream sha1Fn inferMime t (.header h :: (bs.map .body ++ [.fin]))).2
        = .ok () ↔ chunkAcceptCond sha1Fn inferMime t h bs) ∧
    (chunkAcceptCond sha1Fn inferMime t h bs →
      (acceptChunkStream sha1Fn inferMime t (.header h :: (bs.map .body ++ [.fin]))).1.seen
          = t.seen.set (h.chunkBytesOffset / t.chunkSize) true ∧
      (acceptChunkStream sha1Fn inferMime t
          (.header h :: (bs.map .body ++ [.fin]))).1.receivedBytes
          = t.receivedBytes + h.chunkLength) ∧
    (∀ e, (acceptChunkStream sha1Fn inferMime t
            (.header h :: (bs.map .body ++ [.fin]))).2 = .error e →
      (acceptChunkStream sha1Fn inferMime t (.header h :: (bs.map .body ++ [.fin]))).1.seen
          = t.seen ∧
      (acceptChunkStream sha1Fn inferMime t
          (.header h :: (bs.map .body ++ [.fin]))).1.receivedBytes = t.receivedBytes ∧
      isConsistencyError e = true) := by
  obtain ⟨h1, h2, h3⟩ := accept_single_chunk sha1Fn inferMime t h bs hcs
  exact ⟨h1, h2, fun e he =>
    ⟨(h3 e he).1, (h3 e he).2.1, (h3 e he).2.2.2 hsid⟩⟩

/-- Witness for `accept_chunk_mark_iff_amended`: the concrete single-chunk
session accepts its chunk when MIME inference matches. -/
theorem accept_chunk_mark_iff_amended_witness :
    (acceptChunkStream idHash c1Infer c1Tracker
      (.header c1Header :: (([[5]] : List (List Nat)).map .body ++ [.fin]))).2
      = .ok () := by
  have hcond : chunkAcceptCond idHash c1Infer c1Tracker c1Header [[5]] := by
    refine ⟨⟨by decide, by decide, by decide, by decide⟩, by decide, by decide, ?_⟩
    intro j hj h0 hz
    have hj0 : j = 0 := Nat.lt_one_iff.mp (by simpa using hj)
    subst hj0
    exact ⟨"txt", rfl⟩
  exact ((accept_chunk_mark_iff_amended idHash c1Infer c1Tracker c1Header [[5]]
    (by decide) (by decide)).1).mpr hcond

/-- Claim C10: `accept_chunk_stream` returns `Ok(())` exactly on a stream
delivering one complete verified chunk (`Header, Body…, End`); a stream
exhausted before completion (empty, or dropped during the body before `End`)
fails with `UnexceptedResourceStreamEOF`; a frame out of the expected order —
a body or end before the header, or a second header — fails with an
`UnreachableStreamPath` error. -/
theorem accept_stream_ok_iff (sha1Fn : List Nat → List Nat)
    (inferMime : List Nat → Option (String × String))
    (t : UploadTracker) (hcs : 0 < t.chunkSize) :
    (∀ frames, (acceptChunkStream sha1Fn inferMime t frames).2 = .ok () ↔
      ∃ h bs, frames = .header h :: (List.map .body bs ++ [.fin]) ∧
        chunkAcceptCond sha1Fn inferMime t h bs) ∧
    ((acceptChunkStream sha1Fn inferMime t []).2 =
      .error .unexceptedResourceStreamEOF) ∧
    (∀ h bs, headerOk t h →
      mimeOkFor inferMime t.fileMimeType (h.chunkBytesOffset / t.chunkSize) 0 bs →
      (acceptChunkStream sha1Fn inferMime t (.header h :: List.map .body bs)).2 =
        .error .unexceptedResourceStreamEOF) ∧
    (∀ b rest, (acceptChunkStream sha1Fn inferMime t (.body b :: rest)).2 =
        .error (.unreachableStreamPath "pattern matching")) ∧
    (∀ rest, (acceptChunkStream sha1Fn inferMime t (.fin :: rest)).2 =
        .error (.unreachableStreamPath "pattern matching")) ∧
    (∀ h h' rest, headerOk t h →
      (acceptChunkStream sha1Fn inferMime t (.header h :: .header h' :: rest)).2 =
        .error (.unreachableStreamPath "pattern matching")) := by
  refine ⟨fun frames => ⟨fun hok => ?_, fun hsh => ?_⟩, ?_, fun h bs hH hM => ?_,
    fun b rest => ?_, fun rest => ?_, fun h h' rest hH => ?_⟩
  · obtain ⟨h, bs, hbs⟩ := acceptChunkStream_ok_shape sha1Fn inferMime t frames hok
    subst hbs
    exact ⟨h, bs, rfl,
      (accept_single_chunk sha1Fn inferMime t h bs hcs).1.mp hok⟩
  · obtain ⟨h, bs, hbs, hcond⟩ := hsh
    subst hbs
    exact (accept_single_chunk sha1Fn inferMime t h bs hcs).1.mpr hcond
  · simp [acceptChunkStream, acceptGo]
  · have hhdr := acceptStep_header_ok sha1Fn inferMime t h hcs hH
    obtain ⟨t', heq, -, -, -, -, -, -⟩ :=
      (acceptGo_bodies sha1Fn inferMime bs t
        ⟨h, [], h.chunkBytesOffset / t.chunkSize, 0⟩ []).1 hM
    rw [acceptChunkStream, acceptGo_cons_ok hhdr, ← List.append_nil (List.map _ bs), heq]
    simp [acceptGo]
  · simp [acceptChunkStream, acceptGo, acceptStep]
  · simp [acceptChunkStream, acceptGo, acceptStep]
  · have hhdr := acceptStep_header_ok sha1Fn inferMime t h hcs hH
    rw [acceptChunkStream, acceptGo_cons_ok hhdr]
    simp [acceptGo, acceptStep]

/-- Witness for `accept_stream_ok_iff`: a stream that starts with `End` fails
with the unreachable-path error on the concrete session. -/
theorem accept_stream_ok_iff_witness :
    (acceptChunkStream idHash c1Infer c1Tracker [AcceptFrame.fin]).2 =
      .error (.unreachableStreamPath "pattern matching") :=
  (accept_stream_ok_iff idHash c1Infer c1Tracker (by decide)).2.2.2.2.1 []

/-- A tracker with chunk 0 missing (seen = [false, true]). -/
def c6Tracker : UploadTracker :=
  { c1Tracker with
    fileSize := 2
    seen := [false, true]
    receivedBytes := 1
    tmpFile := [0, 9] }

/-- Witness for `merge_error_cases`: on the concrete tracker missing its
chunk 0, `merge` reports `SeenBytesRetained [0]`. -/
theorem merge_error_cases_witness :
    merge idHash c6Tracker = .error (.seenBytesRetained [0]) := by
  have h := (merge_error_cases idHash c6Tracker).1 ⟨0, by decide, by decide⟩
  rw [show zeroIdxs c6Tracker.seen = [0] from by decide] at h
  exact h

/-! ## Gladiator pipeline (src/gladiator.rs, src/gladiator/pipeline.rs,
src/gladiator/pipeline/cons.rs)

The `markup5ever_rcdom` DOM is embedded as a tree of nodes.  Each node carries
a `parentSet` flag modelling whether its interior-mutable `parent` cell holds
a pointer to its owning node (in a well-formed tree every attached child has
`parentSet = true`); `forget_child` clears the flag on the detached children,
appending sets it.  Grapheme-cluster counting (`unicode_segmentation`) is the
parameter `gc`; the extension registry's `validate_attr` / `render` dispatch
and html5ever fragment parsing are parameters at their call sites. -/

/-- An rcdom node: an element (namespace, local name, attribute list,
children) or a text node. -/
inductive RNode where
  | elem (ns : String) (localName : String) (attrs : List (String × String))
      (parentSet : Bool) (children : List RNode)
  | text (contents : String) (parentSet : Bool)

/-- Attribute list of a node (empty for text nodes;
`ElementStandardNode::split` is only ever called on elements). -/
def attrsOf : RNode → List (String × String)
  | .elem _ _ attrs _ _ => attrs
  | .text _ _ => []

/-- Child list of a node. -/
def childrenOf : RNode → List RNode
  | .elem _ _ _ _ cs => cs
  | .text _ _ => []

/-- Whether the node's `parent` cell is set. -/
def parentSetOf : RNode → Bool
  | .elem _ _ _ p _ => p
  | .text _ p => p

/-- Rust `usize::next_multiple_of(3)`. -/
def nextMultipleOf3 (n : Nat) : Nat := ((n + 2) / 3) * 3

mutual
/-- `OutGoingEchoFilterCons::maybe_text_len` (cons.rs:171-182): a text node
counts its grapheme clusters, any other node sums its children's values, and
the result is rounded up to the next multiple of 3 at EVERY level. -/
def maybeTextLen (gc : String → Nat) : RNode → Nat
  | .text s _ => nextMultipleOf3 (gc s)
  | .elem _ _ _ _ cs => nextMultipleOf3 (maybeTextLenList gc cs)

def maybeTextLenList (gc : String → Nat) : List RNode → Nat
  | [] => 0
  | c :: cs => maybeTextLen gc c + maybeTextLenList gc cs
end

mutual
/-- Total grapheme-cluster count over all descendant text nodes. -/
def textGraphemes (gc : String → Nat) : RNode → Nat
  | .text s _ => gc s
  | .elem _ _ _ _ cs => textGraphemesList gc cs

def textGraphemesList (gc : String → Nat) : List RNode → Nat
  | [] => 0
  | c :: cs => textGraphemes gc c + textGraphemesList gc cs
end

/-- Follows the spec's words (§8.2 / §4.E.iii): the number of grapheme
clusters summed across all descendant text nodes, rounded up to the next
multiple of 3 — the value the claim says `echo-s` carries. -/
def specEchoS (gc : String → Nat) (node : RNode) : Nat :=
  nextMultipleOf3 (textGraphemes gc node)

mutual
/-- Sum, over the descendant text nodes, of the per-text grapheme count
rounded up to the next multiple of 3 — the value `maybe_text_len` actually
computes (see `maybeTextLen_eq_roundedTextSum`). -/
def roundedTextSum (gc : String → Nat) : RNode → Nat
  | .text s _ => nextMultipleOf3 (gc s)
  | .elem _ _ _ _ cs => roundedTextSumList gc cs

def roundedTextSumList (gc : String → Nat) : List RNode → Nat
  | [] => 0
  | c :: cs => roundedTextSum gc c + roundedTextSumList gc cs
end

/-- Clearing a detached child's parent cell (`child.parent.set(None)`). -/
def clearParent : RNode → RNode
  | .elem ns l a _ cs => .elem ns l a false cs
  | .text s _ => .text s false

/-- Setting an appended child's parent cell to its new owner
(`child.parent.set(Some(Rc::downgrade(target)))`). -/
def setParentTrue : RNode → RNode
  | .elem ns l a _ cs => .elem ns l a true cs
  | .text s _ => .text s true

/-- `OutGoingEchoFilterCons::process`, Standard arm (cons.rs:188-197): when
the element lacks permission, replace its attribute list by the single
`echo-s` attribute valued `maybe_text_len` of the element, then
`forget_child`.  Returns the rewritten element together with the detached
children (each with its parent cell cleared). -/
def outFilterStandard (gc : String → Nat) (node : RNode) (hasPermission : Bool) :
    RNode × List RNode :=
  if hasPermission then (node, [])
  else match node with
    | .elem ns l a p cs =>
        (.elem ns l [("echo-s", toString (maybeTextLen gc (.elem ns l a p cs)))] p [],
         cs.map clearParent)
    | .text s p => (.text s p, [])

/-- A classified echo element (gladiator.rs:58-61).  `extId` is
`Result<u32, ParseIntError>` collapsed to `Option Nat`. -/
inductive GladiatorElement where
  | standard (node : RNode) (hasPermission : Bool)
  | extended (node : RNode) (hasPermission : Bool) (extId : Option Nat)
      (extHasPermission : Bool)

/-- `GladiatorElement::has_permission` (gladiator.rs:63-70). -/
def elemHasPermission : GladiatorElement → Bool
  | .standard _ hp => hp
  | .extended _ hp _ _ => hp

/-- The node inside a classified element. -/
def elemNode : GladiatorElement → RNode
  | .standard n _ => n
  | .extended n _ _ _ => n

/-- First attribute with the given name (`attrs.iter().find(...)`). -/
def findAttr (attrs : List (String × String)) (name : String) : Option String :=
  (attrs.find? (fun a => a.1 = name)).map (·.2)

/-- `str::parse::<u32>` on an attribute value: decimal digits within the u32
range.  (Rust also accepts a leading `+`, which never occurs in the claims
below.) -/
def parseU32 (s : String) : Option Nat :=
  match s.toNat? with
  | some n => if n < 4294967296 then some n else none
  | none => none

/-- The classifier of `GladiatorTransformer::process_node`
(pipeline.rs:133-186): an HTML-namespace element carrying `echo-pm` is
emitted as Standard if it is a `span`, as Extended if it is a `div` that also
carries `echo-ext-id`; anything else is skipped (and does not count as an
echo element). -/
def classify (pms exts : List String) (node : RNode) : Option GladiatorElement :=
  match node with
  | .elem ns l attrs p cs =>
      if ns = "html" then
        match findAttr attrs "echo-pm" with
        | some pmv =>
            let hasPm := pms.contains pmv
            if l = "span" then some (.standard (.elem ns l attrs p cs) hasPm)
            else if l = "div" then
              match findAttr attrs "echo-ext-id" with
              | some extv =>
                  some (.extended (.elem ns l attrs p cs) hasPm (parseU32 extv)
                    (exts.contains extv))
              | none => none
            else none
        | none => none
      else none
  | .text _ _ => none

mutual
/-- Depth-first emission order with depth tracking
(pipeline.rs:129-202): an emitted node's children are traversed at
`depth + 1`, a skipped node's children inherit `depth`.  The root call is
`process_node(&dom.document, pipelines, 1)`. -/
def emittedNode (pms exts : List String) : RNode → Nat → List (GladiatorElement × Nat)
  | .text _ _, _ => []
  | .elem ns l attrs p cs, depth =>
      match classify pms exts (.elem ns l attrs p cs) with
      | some e => (e, depth) :: emittedList pms exts cs (depth + 1)
      | none => emittedList pms exts cs depth

def emittedList (pms exts : List String) : List RNode → Nat → List (GladiatorElement × Nat)
  | [], _ => []
  | c :: cs, d => emittedNode pms exts c d ++ emittedList pms exts cs d
end

/-- `EchoExtError` (ext_plugins.rs:13-31). -/
inductive EchoExtError where
  | arcUpgrade
  | extIdTransUsize
  | fragDomMissingChild
  | unknownExtId (id : Nat)
  | metaKeyNotExist (k : String)
  | evaluateKeyExist (k : String)
  | customValidation (k : String)
  | resManagerService
deriving DecidableEq

/-- `IncomingCheckConsError` (cons.rs:18-30). -/
inductive IncomingCheckConsError where
  | permissionDenied
  | extPermissionNotMatched
  | recursionEchoElement (depth : Nat)
  | invalidExtID
  | extCheckError (e : EchoExtError)
deriving DecidableEq

/-- `IncomingEchoCheckCons::inner_process` (cons.rs:59-86), with the registry
dispatch `validate_attr` as the parameter `validate`.  The checks run in the
source's order: recursion depth, permission, extension permission, ext-id
parse, registry attribute validation. -/
def innerProcess (validate : Nat → List (String × String) → Except EchoExtError Unit)
    (e : GladiatorElement) (depth : Nat) : Option IncomingCheckConsError :=
  if depth > 1 then some (.recursionEchoElement depth)
  else if ¬ elemHasPermission e then some .permissionDenied
  else match e with
    | .standard _ _ => none
    | .extended n _ extId extPm =>
        if ¬ extPm then some .extPermissionNotMatched
        else match extId with
          | none => some .invalidExtID
          | some id =>
              match validate id (attrsOf n) with
              | .error ee => some (.extCheckError ee)
              | .ok _ => none

/-- `IncomingEchoCheckCons::process` (cons.rs:89-97): `inner_process` runs
and latches only while no error is latched yet. -/
def latchStep (validate : Nat → List (String × String) → Except EchoExtError Unit)
    (err : Option IncomingCheckConsError) (p : GladiatorElement × Nat) :
    Option IncomingCheckConsError :=
  match err with
  | some e => some e
  | none => innerProcess validate p.1 p.2

/-- The checker's state after the driver has fed it a list of emitted
elements in order. -/
def latchRun (validate : Nat → List (String × String) → Except EchoExtError Unit)
    (err0 : Option IncomingCheckConsError)
    (es : List (GladiatorElement × Nat)) : Option IncomingCheckConsError :=
  es.foldl (latchStep validate) err0

/-- Whether some attribute is named exactly `echo-ext-fuzz-hw`
(`get_from_attr(attrs, "hw", "echo-ext-fuzz-")`, cons.rs:269; the source
iterates the list reversed, which does not change existence). -/
def hasFuzzHwAttr (attrs : List (String × String)) : Bool :=
  (attrs.reverse.find? (fun a => a.1 = "echo-ext-fuzz-hw")).isSome

/-- `OutGoingEchoSSRCons::render` (cons.rs:260-295).  `renderFn` is the
registry dispatch `render(ext_id, state, ctx, attrs)` producing an HTML
string; `parseFrag` is html5ever `parse_fragment` reduced to the top-level
children of the parsed fragment.  The parsed children are pushed onto the
element's EXISTING child list, each with its parent cell pointed at the
element. -/
def ssrRender (renderFn : Nat → List (String × String) → Except EchoExtError String)
    (parseFrag : String → List RNode) (extId : Option Nat) (node : RNode) :
    Except EchoExtError RNode :=
  match node with
  | .elem ns l attrs p cs =>
      if hasFuzzHwAttr attrs then .ok (.elem ns l attrs p cs)
      else match extId with
        | none => .error .extIdTransUsize
        | some id =>
            (renderFn id attrs).map fun html =>
              .elem ns l attrs p (cs ++ (parseFrag html).map setParentTrue)
  | .text s p => .ok (.text s p)

/-! ### Gladiator claim theorems -/

/-- `nextMultipleOf3` always yields a multiple of 3. -/
theorem three_dvd_nextMultipleOf3 (n : Nat) : 3 ∣ nextMultipleOf3 n :=
  Dvd.intro _ (Nat.mul_comm _ _)

/-- `nextMultipleOf3` fixes multiples of 3. -/
theorem nextMultipleOf3_of_dvd {n : Nat} (h : 3 ∣ n) : nextMultipleOf3 n = n := by
  unfold nextMultipleOf3
  omega

mutual
theorem three_dvd_roundedTextSum (gc : String → Nat) :
    ∀ n : RNode, 3 ∣ roundedTextSum gc n
  | .text s _ => three_dvd_nextMultipleOf3 (gc s)
  | .elem _ _ _ _ cs => three_dvd_roundedTextSumList gc cs

theorem three_dvd_roundedTextSumList (gc : String → Nat) :
    ∀ cs : List RNode, 3 ∣ roundedTextSumList gc cs
  | [] => Dvd.intro 0 rfl
  | c :: cs =>
      Nat.dvd_add (three_dvd_roundedTextSum gc c) (three_dvd_roundedTextSumList gc cs)
end

mutual
/-- `maybe_text_len` computes the sum of the per-text-node rounded grapheme
counts: each text node is rounded individually, and the re-rounding at inner
levels is the identity because a sum of multiples of 3 is a multiple of 3. -/
theorem maybeTextLen_eq_roundedTextSum (gc : String → Nat) :
    ∀ n : RNode, maybeTextLen gc n = roundedTextSum gc n
  | .text s p => rfl
  | .elem ns l a p cs => by
      rw [maybeTextLen, roundedTextSum, maybeTextLenList_eq_roundedTextSumList gc cs]
      exact nextMultipleOf3_of_dvd (three_dvd_roundedTextSumList gc cs)

theorem maybeTextLenList_eq_roundedTextSumList (gc : String → Nat) :
    ∀ cs : List RNode, maybeTextLenList gc cs = roundedTextSumList gc cs
  | [] => rfl
  | c :: cs => by
      rw [maybeTextLenList, roundedTextSumList, maybeTextLen_eq_roundedTextSum gc c,
        maybeTextLenList_eq_roundedTextSumList gc cs]
end

/-- `clearParent` clears the parent cell. -/
theorem parentSetOf_clearParent (n : RNode) : parentSetOf (clearParent n) = false := by
  cases n <;> rfl

/-- `setParentTrue` sets the parent cell. -/
theorem parentSetOf_setParentTrue (n : RNode) : parentSetOf (setParentTrue n) = true := by
  cases n <;> rfl

/-- A Standard echo `span` without permission, whose text is split over two
descendant text nodes of one grapheme each ("a" and "b", counted by
`String.length`, which equals the grapheme count on ASCII). -/
def c2Node : RNode :=
  .elem "html" "span" [("echo-pm","2")] true
    [.text "a" true, .elem "html" "strong" [] true [.text "b" true]]

/-- Claim C2 (counterexample): after OutGoingEchoFilterCons, the no-permission
Standard element `c2Node`'s only attribute is `echo-s = "6"`, while the claim
says it is the total descendant grapheme count (2) rounded up to the next
multiple of 3, i.e. `"3"`: `maybe_text_len` (cons.rs:171-182) rounds at every
recursion level, so each 1-grapheme text node contributes 3. -/
theorem outGoingFilter_echo_s_counterexample :
    attrsOf (outFilterStandard String.length c2Node false).1 = [("echo-s", "6")] ∧
    toString (specEchoS String.length c2Node) = "3" ∧
    attrsOf (outFilterStandard String.length c2Node false).1 ≠
      [("echo-s", toString (specEchoS String.length c2Node))] := by
  exact ⟨rfl, rfl, by decide⟩

/-- Claim C2 (amended): for every Standard echo element without permission,
OutGoingEchoFilterCons replaces the attribute list with the single attribute
`echo-s = n` where `n` is the sum over the descendant text nodes of the
per-text grapheme count rounded up to the next multiple of 3; all children
are detached with their parent back-references cleared. -/
theorem outGoingFilter_echo_s_amended (gc : String → Nat) (ns l : String)
    (attrs : List (String × String)) (p : Bool) (cs : List RNode) :
    outFilterStandard gc (.elem ns l attrs p cs) false =
      (.elem ns l [("echo-s", toString (roundedTextSum gc (.elem ns l attrs p cs)))]
        p [], cs.map clearParent) ∧
    ∀ c ∈ (outFilterStandard gc (.elem ns l attrs p cs) false).2,
      parentSetOf c = false := by
  constructor
  · simp [outFilterStandard, maybeTextLen_eq_roundedTextSum]
  · intro c hc
    simp [outFilterStandard] at hc
    obtain ⟨c0, -, rfl⟩ := hc
    exact parentSetOf_clearParent c0

/-- Witness for `outGoingFilter_echo_s_amended` at the concrete `c2Node`. -/
theorem outGoingFilter_echo_s_amended_witness :
    outFilterStandard String.length c2Node false =
      (.elem "html" "span" [("echo-s", "6")] true [],
       [.text "a" false, .elem "html" "strong" [] false [.text "b" true]]) :=
  (outGoingFilter_echo_s_amended String.length "html" "span" [("echo-pm","2")] true
    [.text "a" true, .elem "html" "strong" [] true [.text "b" true]]).1

/-- The registry dispatch instantiation used in the concrete pipeline
statements; the elements involved are Standard, so `validate_attr` is never
consulted on them. -/
def trivialValidate : Nat → List (String × String) → Except EchoExtError Unit :=
  fun _ _ => .ok ()

/-- The document root of S4-style nested spans: a non-echo wrapper containing
`<span echo-pm="1"><span echo-pm="1"></span></span>`. -/
def c3Root : RNode :=
  .elem "" "root" [] false
    [.elem "html" "span" [("echo-pm","1")] true
      [.elem "html" "span" [("echo-pm","1")] true []]]

/-- Whether the latched state is a `RecursionEchoElement` error. -/
def isRecursionLatched : Option IncomingCheckConsError → Bool
  | some (.recursionEchoElement _) => true
  | _ => false

/-- Claim C3 (counterexample): on the nested-spans DOM with an EMPTY viewer
permission set, the latched error is `PermissionDenied`, not
`RecursionEchoElement`: the outer span (depth 1) fails its permission check
first and the first error is never overwritten (the repository's own test
`recursive_check`, gladiator.rs:184-209, asserts exactly this).  The claim's
"regardless of the viewer's permission and extension sets" is false. -/
theorem incomingCheck_recursion_counterexample :
    latchRun trivialValidate none (emittedNode [] [] c3Root 1) =
      some .permissionDenied ∧
    isRecursionLatched
      (latchRun trivialValidate none (emittedNode [] [] c3Root 1)) = false := by
  exact ⟨by decide, by decide⟩

/-- Default pair for position-indexed access to emitted-element lists. -/
def gdefault : GladiatorElement × Nat := (.standard (.text "" false) false, 0)

/-- Latching an error keeps it forever. -/
theorem latchRun_some (validate : Nat → List (String × String) → Except EchoExtError Unit)
    (e : IncomingCheckConsError) :
    ∀ es : List (GladiatorElement × Nat), latchRun validate (some e) es = some e := by
  intro es
  induction es with
  | nil => rfl
  | cons p es ih => simpa [latchRun, latchStep] using ih

/-- If every element before position `i` passes and the element at `i` has
depth ≥ 2, the latched error is `RecursionEchoElement` of that depth. -/
theorem latchRun_recursion_at
    (validate : Nat → List (String × String) → Except EchoExtError Unit) :
    ∀ (es : List (GladiatorElement × Nat)) (i : Nat), i < es.length →
    2 ≤ (es.getD i gdefault).2 →
    (∀ j, j < i → innerProcess validate (es.getD j gdefault).1 (es.getD j gdefault).2 = none) →
    latchRun validate none es = some (.recursionEchoElement (es.getD i gdefault).2) := by
  intro es
  induction es with
  | nil =>
      intro i hi
      simp at hi
  | cons p es ih =>
      intro i hi hd hprev
      cases i with
      | zero =>
          have hrec : innerProcess validate p.1 p.2 =
              some (.recursionEchoElement p.2) := by
            have h1 : p.2 > 1 := by
              simpa using hd
            simp [innerProcess, h1]
          calc latchRun validate none (p :: es)
              = latchRun validate (some (.recursionEchoElement p.2)) es := by
                simp [latchRun, latchStep, hrec]
            _ = some (.recursionEchoElement p.2) := latchRun_some validate _ es
      | succ i =>
          have hp : innerProcess validate p.1 p.2 = none := by
            simpa using hprev 0 (Nat.zero_lt_succ i)
          have hstep : latchRun validate none (p :: es) = latchRun validate none es := by
            simp [latchRun, latchStep, hp]
          rw [hstep]
          exact ih i (by simpa using hi) (by simpa using hd)
            (fun j hj => by simpa using hprev (j + 1) (by omega))

/-- Claim C3 (amended): for any input DOM whose traversal emits an echo
element at depth ≥ 2 (a nested echo element), IncomingEchoCheckCons latches
`RecursionEchoElement(d)` with d ≥ 2 PROVIDED every emitted element before
the first nested one passes its checks; with an arbitrary viewer an earlier
element may fail first and latch its own error instead (first error wins). -/
theorem incomingCheck_recursion_amended
    (validate : Nat → List (String × String) → Except EchoExtError Unit)
    (pms exts : List String) (root : RNode) (i : Nat)
    (es : List (GladiatorElement × Nat)) (hes : es = emittedNode pms exts root 1)
    (hi : i < es.length)
    (hd : 2 ≤ (es.getD i gdefault).2)
    (hprev : ∀ j, j < i →
      innerProcess validate (es.getD j gdefault).1 (es.getD j gdefault).2 = none) :
    latchRun validate none es =
      some (.recursionEchoElement (es.getD i gdefault).2) ∧
    2 ≤ (es.getD i gdefault).2 :=
  ⟨latchRun_recursion_at validate es i hi hd hprev, hd⟩

/-- Witness for `incomingCheck_recursion_amended`: the nested spans of
`c3Root` with the viewer holding permission "1" latch
`RecursionEchoElement 2`. -/
theorem incomingCheck_recursion_amended_witness :
    latchRun trivialValidate none (emittedNode ["1"] [] c3Root 1) =
      some (.recursionEchoElement 2) := by
  have h := (incomingCheck_recursion_amended trivialValidate ["1"] [] c3Root 1
    (emittedNode ["1"] [] c3Root 1) rfl (by decide) (by decide)
    (by decide)).1
  exact h.trans (by decide)

/-- Claim C7: the latched error of IncomingEchoCheckCons is the error of the
first emitted element (in depth-first order) failing a check, the checks per
element running in `inner_process`'s order (depth, permission, extension
permission, ext-id parse, registry validation — see `innerProcess`); a latched
error is never overwritten; and latching never aborts the traversal: the fold
over a concatenation processes every element of both parts, threading the
latch state. -/
theorem incomingCheck_first_error_wins
    (validate : Nat → List (String × String) → Except EchoExtError Unit)
    (es es₁ es₂ : List (GladiatorElement × Nat)) (e : IncomingCheckConsError)
    (err0 : Option IncomingCheckConsError) :
    latchRun validate none es =
      es.findSome? (fun p => innerProcess validate p.1 p.2) ∧
    latchRun validate (some e) es = some e ∧
    latchRun validate err0 (es₁ ++ es₂) =
      latchRun validate (latchRun validate err0 es₁) es₂ := by
  refine ⟨?_, latchRun_some validate e es, ?_⟩
  · induction es with
    | nil => rfl
    | cons p es ih =>
        cases hp : innerProcess validate p.1 p.2 with
        | none => simpa [latchRun, latchStep, hp, List.findSome?] using ih
        | some e' =>
            have hsome := latchRun_some validate e' es
            simp only [latchRun, List.foldl_cons, latchStep, hp, List.findSome?]
              at hsome ⊢
            exact hsome
  · exact List.foldl_append ..

/-- Registry render instantiation for the concrete SSR statement. -/
def c8Render : Nat → List (String × String) → Except EchoExtError String :=
  fun _ _ => .ok "x"

/-- Fragment-parse instantiation: one top-level text node (fresh nodes come
out of the parser with no parent). -/
def c8Parse : String → List RNode := fun _ => [.text "new" false]

/-- An Extended echo `div` that already has one child before SSR runs. -/
def c8Node : RNode :=
  .elem "html" "div" [("echo-pm","1"),("echo-ext-id","2")] true [.text "old" true]

/-- Claim C8 (counterexample): `OutGoingEchoSSRCons::render` does NOT clear
the element's existing children: rendering `c8Node` (one pre-existing child,
fragment parsing to one node) leaves TWO children — the old one followed by
the appended fragment node — while the claim says the children are exactly
the fragment's top-level children (one node).  The loop at cons.rs:288-292
only pushes onto `target.children`.  (Spec §9 flags exactly this.) -/
theorem ssr_children_counterexample :
    ssrRender c8Render c8Parse (some 2) c8Node =
      .ok (.elem "html" "div" [("echo-pm","1"),("echo-ext-id","2")] true
        [.text "old" true, .text "new" true]) ∧
    ((c8Parse "x").map setParentTrue).length = 1 ∧
    (match ssrRender c8Render c8Parse (some 2) c8Node with
     | .ok r => (childrenOf r).length
     | .error _ => 0) = 2 := by
  exact ⟨rfl, rfl, rfl⟩

/-- Claim C8 (amended): for every Extended echo element that renders (no
`echo-ext-fuzz-hw` attribute, parsed ext id, successful registry render),
after processing the element's children are its PRE-EXISTING children
followed by the top-level children of the parsed rendered fragment, and each
appended child's parent back-reference points to the element. -/
theorem ssr_children_amended
    (renderFn : Nat → List (String × String) → Except EchoExtError String)
    (parseFrag : String → List RNode) (id : Nat) (ns l : String)
    (attrs : List (String × String)) (p : Bool) (cs : List RNode) (html : String)
    (hfz : hasFuzzHwAttr attrs = false)
    (hr : renderFn id attrs = .ok html) :
    ssrRender renderFn parseFrag (some id) (.elem ns l attrs p cs) =
      .ok (.elem ns l attrs p (cs ++ (parseFrag html).map setParentTrue)) ∧
    ∀ c ∈ (parseFrag html).map setParentTrue, parentSetOf c = true := by
  constructor
  · simp [ssrRender, hfz, hr, Except.map]
  · intro c hc
    obtain ⟨c0, -, rfl⟩ := List.mem_map.mp hc
    exact parentSetOf_setParentTrue c0

/-- Witness for `ssr_children_amended` at the concrete `c8Node`. -/
theorem ssr_children_amended_witness :
    ssrRender c8Render c8Parse (some 2) c8Node =
      .ok (.elem "html" "div" [("echo-pm","1"),("echo-ext-id","2")] true
        [.text "old" true, .text "new" true]) :=
  (ssr_children_amended c8Render c8Parse 2 "html" "div"
    [("echo-pm","1"),("echo-ext-id","2")] true [.text "old" true] "x" rfl rfl).1

/-! ## Upload framing codec (src/services/upload_tracker.rs:97-163)

`ResourceUploadProtocol::decode` over a byte buffer (`BytesMut` as
`List Nat`).  One `decode` call runs the internal `loop` until it returns:
the loop is finite (at most two stage hops before a return), so it is inlined
below.  `drain` models the `FramedRead` driver calling `decode` repeatedly on
one buffer until it yields `Ok(None)`; `feedAll` feeds a partition of the
input, appending each packet to the buffer and draining. -/

/-- `Buf::get_u32` (big-endian) on the front of the buffer. -/
def readU32BE : List Nat → Nat
  | b0 :: b1 :: b2 :: b3 :: _ => ((b0 * 256 + b1) * 256 + b2) * 256 + b3
  | _ => 0

/-- Big-endian 4-byte encoding of a `u32`. -/
def u32be (n : Nat) : List Nat :=
  [n / 16777216 % 256, n / 65536 % 256, n / 256 % 256, n % 256]

/-- `ResourceUploadLimits` (upload_tracker.rs:26-34).  The constructor
`ResourceUploadProtocol::new` panics unless `flush_stream_size ≥ 8192`
(upload_tracker.rs:74-77); that guard is carried as the `flushValid` field. -/
structure ResourceUploadLimits where
  flushStreamSize : Nat
  maxHeadSize : Nat
  maxBodySize : Nat
  flushValid : 8192 ≤ flushStreamSize

/-- `ResourceUploadFrame` (upload_tracker.rs:37-41). -/
inductive ResourceUploadFrame where
  | header (bytes : List Nat)
  | bodyChunk (bytes : List Nat)
  | endF
deriving DecidableEq

/-- `ResourceUploadStage` (upload_tracker.rs:58-64).  The source's
`NeedMagicAndPrefix` is spelled `needMagicStart` here. -/
inductive ResourceUploadStage where
  | needMagicStart
  | needHeader (headLen bodyLen : Nat)
  | streamBody (remaining : Nat)
  | emitEnd
  | doneS
deriving DecidableEq

/-- `ResourceUploadProtocolError` (upload_tracker.rs:85-95). -/
inductive ResourceUploadProtocolError where
  | invalidMagic
  | headTooLarge (got max : Nat)
  | bodyTooLarge (got max : Nat)
deriving DecidableEq

/-- The outcome of one `decode` call: a frame (`Ok(Some(..))` with the
mutated stage and buffer), no frame yet (`Ok(None)`), or an error. -/
inductive DecodeStep where
  | emit (stage : ResourceUploadStage) (buf : List Nat) (f : ResourceUploadFrame)
  | pending (stage : ResourceUploadStage) (buf : List Nat)
  | fail (e : ResourceUploadProtocolError)
deriving DecidableEq

/-- The `NeedHeader` arm of the decode loop (upload_tracker.rs:129-140),
shared with the fall-through from the magic/length-prefix arm. -/
def needHeaderStep (headLen bodyLen : Nat) (buf : List Nat) : DecodeStep :=
  if buf.length < headLen then .pending (.needHeader headLen bodyLen) buf
  else .emit (.streamBody bodyLen) (buf.drop headLen) (.header (buf.take headLen))

/-- One call of `ResourceUploadProtocol::decode` (upload_tracker.rs:101-162).
The magic is ASCII `"qwq"` = `[113, 119, 113]`; the two big-endian `u32`
length prefixes follow; `StreamBody(0)` falls through to `EmitEnd` which
emits `End` and moves to `Done`; `Done` consumes nothing and emits nothing. -/
def decode (L : ResourceUploadLimits) (stage : ResourceUploadStage)
    (buf : List Nat) : DecodeStep :=
  match stage with
  | .needMagicStart =>
      if buf.length < 11 then .pending .needMagicStart buf
      else if buf.take 3 ≠ [113, 119, 113] then .fail .invalidMagic
      else
        let headLen := readU32BE (buf.drop 3)
        let bodyLen := readU32BE (buf.drop 7)
        if L.maxHeadSize < headLen then .fail (.headTooLarge headLen L.maxHeadSize)
        else if L.maxBodySize < bodyLen then .fail (.bodyTooLarge bodyLen L.maxBodySize)
        else needHeaderStep headLen bodyLen (buf.drop 11)
  | .needHeader headLen bodyLen => needHeaderStep headLen bodyLen buf
  | .streamBody remaining =>
      if remaining = 0 then .emit .doneS buf .endF
      else if buf.length = 0 then .pending (.streamBody remaining) buf
      else
        .emit (.streamBody (remaining - min (min buf.length remaining) L.flushStreamSize))
          (buf.drop (min (min buf.length remaining) L.flushStreamSize))
          (.bodyChunk (buf.take (min (min buf.length remaining) L.flushStreamSize)))
  | .emitEnd => .emit .doneS buf .endF
  | .doneS => .pending .doneS buf

/-- Stage order used for `drain`'s termination: each emitted frame either
consumes buffer bytes or strictly advances the stage. -/
def stageRank : ResourceUploadStage → Nat
  | .needMagicStart => 3
  | .needHeader _ _ => 2
  | .streamBody _ => 1
  | .emitEnd => 1
  | .doneS => 0

/-- Every frame-emitting `decode` call strictly decreases
`4 * |buf| + stageRank`. -/
theorem decode_emit_measure (L : ResourceUploadLimits)
    (st : ResourceUploadStage) (buf : List Nat)
    (st' : ResourceUploadStage) (buf' : List Nat) (f : ResourceUploadFrame)
    (h : decode L st buf = .emit st' buf' f) :
    4 * buf'.length + stageRank st' < 4 * buf.length + stageRank st := by
  have hflush : 0 < L.flushStreamSize := by
    have := L.flushValid
    omega
  cases st with
  | needMagicStart =>
      simp only [decode, needHeaderStep] at h
      split at h
      · exact absurd h (by simp)
      · split at h
        · exact absurd h (by simp)
        · split at h
          · exact absurd h (by simp)
          · split at h
            · exact absurd h (by simp)
            · split at h
              · exact absurd h (by simp)
              · injection h with h1 h2 h3
                subst h1
                subst h2
                simp only [stageRank, List.length_drop]
                omega
  | needHeader hl bl =>
      simp only [decode, needHeaderStep] at h
      split at h
      · exact absurd h (by simp)
      · injection h with h1 h2 h3
        subst h1
        subst h2
        simp only [stageRank, List.length_drop]
        omega
  | streamBody r =>
      simp only [decode] at h
      split at h
      · injection h with h1 h2 h3
        subst h1
        subst h2
        simp [stageRank]
      · split at h
        · exact absurd h (by simp)
        · rename_i hr hb
          injection h with h1 h2 h3
          subst h1
          subst h2
          simp only [stageRank, List.length_drop]
          omega
  | emitEnd =>
      simp only [decode] at h
      injection h with h1 h2 h3
      subst h1
      subst h2
      simp [stageRank]
  | doneS => simp [decode] at h

/-- The `FramedRead` driver: call `decode` on the buffer until it yields no
frame, collecting the frames in order. -/
def drain (L : ResourceUploadLimits) (st : ResourceUploadStage) (buf : List Nat) :
    Except ResourceUploadProtocolError
      (ResourceUploadStage × List Nat × List ResourceUploadFrame) :=
  match hd : decode L st buf with
  | .fail e => .error e
  | .pending st' buf' => .ok (st', buf', [])
  | .emit st' buf' f =>
      match drain L st' buf' with
      | .error e => .error e
      | .ok (s2, b2, fs) => .ok (s2, b2, f :: fs)
termination_by 4 * buf.length + stageRank st
decreasing_by exact decode_emit_measure L st buf st' buf' f hd

/-- Feeding a partition of the input: append each packet to the buffer in
turn and drain, collecting all emitted frames. -/
def feedAll (L : ResourceUploadLimits) :
    ResourceUploadStage → List Nat → List (List Nat) →
    Except ResourceUploadProtocolError
      (ResourceUploadStage × List Nat × List ResourceUploadFrame)
  | st, buf, [] => .ok (st, buf, [])
  | st, buf, p :: ps =>
      match drain L st (buf ++ p) with
      | .error e => .error e
      | .ok (st', buf', fs) =>
          match feedAll L st' buf' ps with
          | .error e => .error e
          | .ok (s2, b2, fs2) => .ok (s2, b2, fs ++ fs2)

/-- A well-formed wire frame: magic, big-endian head and body lengths, head
bytes, body bytes (upload_tracker.rs:36). -/
def wire (head body : List Nat) : List Nat :=
  [113, 119, 113] ++ u32be head.length ++ u32be body.length ++ head ++ body

theorem drain_of_pending {L : ResourceUploadLimits} {st : ResourceUploadStage}
    {buf : List Nat} {st' : ResourceUploadStage} {buf' : List Nat}
    (h : decode L st buf = .pending st' buf') :
    drain L st buf = .ok (st', buf', []) := by
  rw [drain, h]

theorem drain_of_fail {L : ResourceUploadLimits} {st : ResourceUploadStage}
    {buf : List Nat} {e : ResourceUploadProtocolError}
    (h : decode L st buf = .fail e) :
    drain L st buf = .error e := by
  rw [drain, h]

theorem drain_of_emit {L : ResourceUploadLimits} {st : ResourceUploadStage}
    {buf : List Nat} {st' : ResourceUploadStage} {buf' : List Nat}
    {f : ResourceUploadFrame}
    (h : decode L st buf = .emit st' buf' f) :
    drain L st buf =
      match drain L st' buf' with
      | .error e => .error e
      | .ok (s2, b2, fs) => .ok (s2, b2, f :: fs) := by
  rw [drain, h]

/-- A configuration `decode` does not change and emits nothing from stays
that way: the stopping configurations of `drain` are `decode`-fixpoints. -/
theorem decode_pending_fix (L : ResourceUploadLimits) (st : ResourceUploadStage)
    (buf : List Nat) (st' : ResourceUploadStage) (buf' : List Nat)
    (h : decode L st buf = .pending st' buf') :
    decode L st' buf' = .pending st' buf' := by
  cases st with
  | needMagicStart =>
      simp only [decode, needHeaderStep] at h
      split at h
      · rename_i h11
        injection h with h1 h2
        subst h1
        subst h2
        simp [decode, h11]
      · split at h
        · exact absurd h (by simp)
        · split at h
          · exact absurd h (by simp)
          · split at h
            · exact absurd h (by simp)
            · split at h
              · rename_i hsh
                injection h with h1 h2
                subst h1
                subst h2
                simp only [List.length_drop] at hsh
                simp [decode, needHeaderStep, hsh]
              · exact absurd h (by simp)
  | needHeader hl bl =>
      simp only [decode, needHeaderStep] at h
      split at h
      · rename_i hsh
        injection h with h1 h2
        subst h1
        subst h2
        simp [decode, needHeaderStep, hsh]
      · exact absurd h (by simp)
  | streamBody r =>
      simp only [decode] at h
      split at h
      · exact absurd h (by simp)
      · split at h
        · rename_i hr hb
          injection h with h1 h2
          subst h1
          subst h2
          simp [decode, hr, hb]
        · exact absurd h (by simp)
  | emitEnd => simp [decode] at h
  | doneS =>
      simp only [decode] at h
      injection h with h1 h2
      subst h1
      subst h2
      simp [decode]

theorem u32be_length (n : Nat) : (u32be n).length = 4 := rfl

theorem readU32BE_u32be_append (n : Nat) (hn : n < 4294967296) (rest : List Nat) :
    readU32BE (u32be n ++ rest) = n := by
  simp only [u32be, List.cons_append, List.nil_append, readU32BE]
  omega

theorem readU32BE_take_u32be (n : Nat) (hn : n < 4294967296) (rest : List Nat)
    (m : Nat) (hm : 4 ≤ m) :
    readU32BE ((u32be n ++ rest).take m) = n := by
  rw [List.take_append_eq_append_take,
    List.take_of_length_le (by rw [u32be_length]; omega)]
  exact readU32BE_u32be_append n hn _

theorem wire_length (head body : List Nat) :
    (wire head body).length = 11 + head.length + body.length := by
  simp [wire, u32be]
  omega

theorem wire_drop_3 (head body : List Nat) :
    (wire head body).drop 3 =
      u32be head.length ++ (u32be body.length ++ (head ++ body)) := rfl

theorem wire_drop_7 (head body : List Nat) :
    (wire head body).drop 7 = u32be body.length ++ (head ++ body) := rfl

theorem wire_drop_11 (head body : List Nat) :
    (wire head body).drop 11 = head ++ body := rfl

/-- Slices of the wire compose: the unconsumed suffix of the first `n` fed
bytes, extended by the next `k` wire bytes, is the unconsumed suffix of the
first `n + k` fed bytes. -/
theorem slice_append (W : List Nat) (m n k : Nat) (hmn : m ≤ n) :
    ((W.take n).drop m) ++ ((W.drop n).take k) = (W.take (n + k)).drop m := by
  rw [List.drop_take, List.drop_take]
  rw [show W.drop n = (W.drop m).drop (n - m) from by
    rw [List.drop_drop]
    congr 1
    omega]
  rw [← List.take_add]
  congr 1
  omega

/-- The decoder-state invariant while feeding the well-formed wire
`wire head body`: after `n` bytes fed (`n ≤ |wire|`), the configuration
`(stage, buffer)` and the frames emitted so far are determined by `n` up to
the chunking of the body, which is constrained to nonempty chunks of at most
`flush_stream_size` bytes concatenating to the body prefix streamed so far. -/
def MidInv (L : ResourceUploadLimits) (head body : List Nat) (n : Nat) :
    ResourceUploadStage → List Nat → List ResourceUploadFrame → Prop
  | .needMagicStart, buf, em =>
      buf = (wire head body).take n ∧ em = []
  | .needHeader hl bl, buf, em =>
      hl = head.length ∧ bl = body.length ∧ 11 ≤ n ∧
      buf = ((wire head body).take n).drop 11 ∧ em = []
  | .streamBody r, buf, em =>
      r ≤ body.length ∧ 11 + head.length + (body.length - r) ≤ n ∧
      buf = ((wire head body).take n).drop (11 + head.length + (body.length - r)) ∧
      ∃ cs : List (List Nat),
        em = .header head :: cs.map .bodyChunk ∧
        cs.flatten = body.take (body.length - r) ∧
        ∀ c ∈ cs, c ≠ [] ∧ c.length ≤ L.flushStreamSize
  | .emitEnd, _, _ => False
  | .doneS, buf, em =>
      n = (wire head body).length ∧ buf = [] ∧
      ∃ cs : List (List Nat),
        em = .header head :: (cs.map .bodyChunk ++ [.endF]) ∧
        cs.flatten = body ∧
        ∀ c ∈ cs, c ≠ [] ∧ c.length ≤ L.flushStreamSize

/-- Feeding the next `k` wire bytes into the buffer preserves the invariant
at `n + k`. -/
theorem midInv_append (L : ResourceUploadLimits) (head body : List Nat)
    (n k : Nat) (st : ResourceUploadStage) (buf : List Nat)
    (em : List ResourceUploadFrame)
    (hk : n + k ≤ (wire head body).length)
    (hm : MidInv L head body n st buf em) :
    MidInv L head body (n + k) st
      (buf ++ ((wire head body).drop n).take k) em := by
  cases st with
  | needMagicStart =>
      obtain ⟨hbuf, hem⟩ := hm
      exact ⟨by rw [hbuf, List.take_add], hem⟩
  | needHeader hl bl =>
      obtain ⟨h1, h2, h3, hbuf, hem⟩ := hm
      refine ⟨h1, h2, by omega, ?_, hem⟩
      rw [hbuf, slice_append _ _ _ _ h3]
  | streamBody r =>
      obtain ⟨h1, h2, hbuf, hcs⟩ := hm
      refine ⟨h1, by omega, ?_, hcs⟩
      rw [hbuf, slice_append _ _ _ _ h2]
  | emitEnd => exact hm.elim
  | doneS =>
      obtain ⟨h1, h2, hcs⟩ := hm
      have hk0 : k = 0 := by omega
      subst hk0
      refine ⟨by omega, ?_, hcs⟩
      rw [h2, List.take_zero, List.append_nil]

/-- `needHeaderStep` never fails. -/
theorem needHeaderStep_ne_fail (hl bl : Nat) (buf : List Nat)
    (e : ResourceUploadProtocolError) : needHeaderStep hl bl buf ≠ .fail e := by
  unfold needHeaderStep
  split <;> simp

/-- The `NeedHeader` phase preserves the invariant when fed the correct slice
of the wire. -/
theorem needHeaderStep_mid (L : ResourceUploadLimits) (head body : List Nat)
    (n : Nat) (hn : n ≤ (wire head body).length) (h11 : 11 ≤ n) :
    (∀ st' buf', needHeaderStep head.length body.length
        (((wire head body).take n).drop 11) = .pending st' buf' →
      MidInv L head body n st' buf' []) ∧
    (∀ st' buf' f, needHeaderStep head.length body.length
        (((wire head body).take n).drop 11) = .emit st' buf' f →
      MidInv L head body n st' buf' [f]) := by
  have hkey : ((wire head body).take n).drop 11 = (head ++ body).take (n - 11) := by
    rw [List.drop_take, wire_drop_11]
  constructor
  · intro st' buf' hp
    unfold needHeaderStep at hp
    split at hp
    · injection hp with h1 h2
      subst h1
      subst h2
      exact ⟨rfl, rfl, h11, rfl, rfl⟩
    · exact absurd hp (by simp)
  · intro st' buf' f hp
    unfold needHeaderStep at hp
    split at hp
    · exact absurd hp (by simp)
    · rename_i hlong
      injection hp with h1 h2 h3
      subst h1
      subst h2
      subst h3
      have hlen : (((wire head body).take n).drop 11).length =
          min (n - 11) (head.length + body.length) := by
        rw [hkey]
        simp [List.length_take]
      have hn11 : head.length ≤ n - 11 := by
        rw [hlen] at hlong
        omega
      have hhead : (((wire head body).take n).drop 11).take head.length = head := by
        rw [hkey, List.take_take, inf_eq_left.mpr hn11,
          List.take_append_eq_append_take, List.take_length, Nat.sub_self,
          List.take_zero, List.append_nil]
      refine ⟨le_refl _, by omega, ?_, [], ?_, by simp, by simp⟩
      · rw [List.drop_drop]
        congr 1
        omega
      · rw [hhead]
        rfl

/-- One `decode` call preserves the invariant: it never fails on the
well-formed wire, and the emitted frame (if any) extends the emitted list in
accordance with the invariant. -/
theorem decode_preserves_mid (L : ResourceUploadLimits) (head body : List Nat)
    (hh : head.length ≤ L.maxHeadSize) (hb : body.length ≤ L.maxBodySize)
    (hh32 : head.length < 4294967296) (hb32 : body.length < 4294967296)
    (n : Nat) (st : ResourceUploadStage) (buf : List Nat)
    (em : List ResourceUploadFrame)
    (hn : n ≤ (wire head body).length)
    (hm : MidInv L head body n st buf em) :
    (∀ e, decode L st buf ≠ .fail e) ∧
    (∀ st' buf', decode L st buf = .pending st' buf' →
      MidInv L head body n st' buf' em) ∧
    (∀ st' buf' f, decode L st buf = .emit st' buf' f →
      MidInv L head body n st' buf' (em ++ [f])) := by
  have hWlen := wire_length head body
  cases st with
  | needMagicStart =>
      obtain ⟨hbuf, hem⟩ := hm
      subst hbuf
      subst hem
      by_cases h11b : ((wire head body).take n).length < 11
      · refine ⟨fun e hf => ?_, fun st' buf' hp => ?_, fun st' buf' f hp => ?_⟩
        · simp only [decode] at hf
          rw [if_pos h11b] at hf
          exact absurd hf (by simp)
        · simp only [decode] at hp
          rw [if_pos h11b] at hp
          injection hp with h1 h2
          subst h1
          subst h2
          exact ⟨rfl, rfl⟩
        · simp only [decode] at hp
          rw [if_pos h11b] at hp
          exact absurd hp (by simp)
      · have h11 : 11 ≤ n := by
          rw [List.length_take] at h11b
          omega
        have hmagic : ((wire head body).take n).take 3 = [113, 119, 113] := by
          rw [List.take_take, inf_eq_left.mpr (by omega : 3 ≤ n)]
          rfl
        have hmagicne : ¬ (((wire head body).take n).take 3 ≠ [113, 119, 113]) :=
          fun hc => hc hmagic
        have hr3 : readU32BE (((wire head body).take n).drop 3) = head.length := by
          rw [List.drop_take, wire_drop_3]
          exact readU32BE_take_u32be head.length hh32 _ (n - 3) (by omega)
        have hr7 : readU32BE (((wire head body).take n).drop 7) = body.length := by
          rw [List.drop_take, wire_drop_7]
          exact readU32BE_take_u32be body.length hb32 _ (n - 7) (by omega)
        have hdec : decode L .needMagicStart ((wire head body).take n) =
            needHeaderStep head.length body.length
              (((wire head body).take n).drop 11) := by
          simp only [decode]
          rw [if_neg h11b, if_neg hmagicne]
          simp only [hr3, hr7]
          rw [if_neg (Nat.not_lt.mpr hh), if_neg (Nat.not_lt.mpr hb)]
        obtain ⟨hpend, hemit⟩ := needHeaderStep_mid L head body n hn h11
        exact ⟨fun e hf => needHeaderStep_ne_fail _ _ _ e (hdec ▸ hf),
          fun st' buf' hp => hpend st' buf' (hdec ▸ hp),
          fun st' buf' f hp => hemit st' buf' f (hdec ▸ hp)⟩
  | needHeader hl bl =>
      obtain ⟨h1, h2, h11, hbuf, hem⟩ := hm
      subst h1
      subst h2
      subst hbuf
      subst hem
      have hdec : decode L (.needHeader head.length body.length)
          (((wire head body).take n).drop 11) =
          needHeaderStep head.length body.length
            (((wire head body).take n).drop 11) := rfl
      obtain ⟨hpend, hemit⟩ := needHeaderStep_mid L head body n hn h11
      exact ⟨fun e hf => needHeaderStep_ne_fail _ _ _ e (hdec ▸ hf),
        fun st' buf' hp => hpend st' buf' (hdec ▸ hp),
        fun st' buf' f hp => hemit st' buf' f (hdec ▸ hp)⟩
  | streamBody r =>
      obtain ⟨hrle, hcle, hbuf, cs, hem, hflat, hcs⟩ := hm
      subst hbuf
      subst hem
      have hblen : (((wire head body).take n).drop
          (11 + head.length + (body.length - r))).length =
          n - (11 + head.length + (body.length - r)) := by
        simp only [List.length_drop, List.length_take]
        omega
      by_cases hr0 : r = 0
      · subst hr0
        refine ⟨fun e hf => by simp [decode] at hf,
          fun st' buf' hp => by simp [decode] at hp,
          fun st' buf' f hp => ?_⟩
        simp only [decode] at hp
        simp only [if_true] at hp
        injection hp with h1 h2 h3
        subst h1
        subst h2
        subst h3
        refine ⟨by omega, ?_, cs, ?_, ?_, hcs⟩
        · apply List.eq_nil_of_length_eq_zero
          rw [hblen]
          omega
        · simp
        · rw [hflat]
          simp
      · by_cases hbe : (((wire head body).take n).drop
            (11 + head.length + (body.length - r))).length = 0
        · refine ⟨fun e hf => ?_, fun st' buf' hp => ?_, fun st' buf' f hp => ?_⟩
          · simp only [decode] at hf
            rw [if_neg hr0, if_pos hbe] at hf
            exact absurd hf (by simp)
          · simp only [decode] at hp
            rw [if_neg hr0, if_pos hbe] at hp
            injection hp with h1 h2
            subst h1
            subst h2
            exact ⟨hrle, hcle, rfl, cs, rfl, hflat, hcs⟩
          · simp only [decode] at hp
            rw [if_neg hr0, if_pos hbe] at hp
            exact absurd hp (by simp)
        · -- a nonempty buffer in StreamBody emits a body chunk
          have hflush : 0 < L.flushStreamSize := by
            have := L.flushValid
            omega
          have hlenr : n - (11 + head.length + (body.length - r)) ≤ r := by
            omega
          refine ⟨fun e hf => ?_, fun st' buf' hp => ?_, fun st' buf' f hp => ?_⟩
          · simp only [decode] at hf
            rw [if_neg hr0, if_neg hbe] at hf
            exact absurd hf (by simp)
          · simp only [decode] at hp
            rw [if_neg hr0, if_neg hbe] at hp
            exact absurd hp (by simp)
          · simp only [decode] at hp
            rw [if_neg hr0, if_neg hbe] at hp
            injection hp with h1 h2 h3
            subst h1
            subst h2
            subst h3
            have hXeq : ((wire head body).take n).drop
                (11 + head.length + (body.length - r)) =
                (body.drop (body.length - r)).take
                  (n - (11 + head.length + (body.length - r))) := by
              rw [List.drop_take]
              congr 1
              rw [← List.drop_drop, ← List.drop_drop, wire_drop_11]
              congr 1
              exact List.drop_left head body
            refine ⟨by omega, by omega, ?_, cs ++
              [(((wire head body).take n).drop
                (11 + head.length + (body.length - r))).take
                  (min (min (((wire head body).take n).drop
                    (11 + head.length + (body.length - r))).length r)
                    L.flushStreamSize)], ?_, ?_, ?_⟩
            · rw [List.drop_drop]
              congr 1
              omega
            · simp [List.map_append]
            · rw [List.flatten_append, hflat]
              simp only [List.flatten_cons, List.flatten_nil, List.append_nil]
              rw [hXeq, List.take_take, inf_eq_left.mpr (by
                simp only [List.length_take, List.length_drop]
                omega), ← List.take_add]
              congr 1
              omega
            · intro c' hc'
              rcases List.mem_append.mp hc' with hold | hnew
              · exact hcs c' hold
              · have hceq : c' = (((wire head body).take n).drop
                    (11 + head.length + (body.length - r))).take
                      (min (min (((wire head body).take n).drop
                        (11 + head.length + (body.length - r))).length r)
                        L.flushStreamSize) := by
                  simpa using hnew
                have hclen : c'.length = min (min (n -
                    (11 + head.length + (body.length - r))) r) L.flushStreamSize := by
                  rw [hceq]
                  simp only [List.length_take, hblen]
                  omega
                constructor
                · intro hnil
                  rw [hnil] at hclen
                  simp at hclen
                  omega
                · omega
  | emitEnd => exact hm.elim
  | doneS =>
      obtain ⟨h1, h2, hcs⟩ := hm
      refine ⟨fun e hf => by simp [decode] at hf, fun st' buf' hp => ?_,
        fun st' buf' f hp => by simp [decode] at hp⟩
      simp only [decode] at hp
      injection hp with ha hbb
      subst ha
      subst hbb
      exact ⟨h1, h2, hcs⟩

/-- `drain` on a configuration holding the invariant succeeds, preserves the
invariant, and stops in a `decode`-fixpoint.  Induction on the measure bound
`m`. -/
theorem drain_mid (L : ResourceUploadLimits) (head body : List Nat)
    (hh : head.length ≤ L.maxHeadSize) (hb : body.length ≤ L.maxBodySize)
    (hh32 : head.length < 4294967296) (hb32 : body.length < 4294967296)
    (n : Nat) (hn : n ≤ (wire head body).length) :
    ∀ (m : Nat) (st : ResourceUploadStage) (buf : List Nat)
      (em : List ResourceUploadFrame),
      4 * buf.length + stageRank st ≤ m →
      MidInv L head body n st buf em →
      ∃ st' buf' fs, drain L st buf = .ok (st', buf', fs) ∧
        MidInv L head body n st' buf' (em ++ fs) ∧
        decode L st' buf' = .pending st' buf' := by
  intro m
  induction m using Nat.strong_induction_on with
  | _ m ih =>
      intro st buf em hmeas hm
      obtain ⟨hnf, hpend, hemit⟩ :=
        decode_preserves_mid L head body hh hb hh32 hb32 n st buf em hn hm
      cases hd : decode L st buf with
      | fail e => exact absurd hd (hnf e)
      | pending st' buf' =>
          exact ⟨st', buf', [], drain_of_pending hd,
            by simpa using hpend st' buf' hd,
            decode_pending_fix L st buf st' buf' hd⟩
      | emit st' buf' f =>
          have hlt := decode_emit_measure L st buf st' buf' f hd
          obtain ⟨st2, buf2, fs, hdr, hmid, hfix⟩ :=
            ih (4 * buf'.length + stageRank st') (by omega) st' buf'
              (em ++ [f]) (le_refl _) (hemit st' buf' f hd)
          refine ⟨st2, buf2, f :: fs, ?_, by simpa using hmid, hfix⟩
          rw [drain_of_emit hd, hdr]

/-- Feeding a partition of a slice of the wire: every packet is drained in
turn, the invariant advances by the packet lengths, and after at least one
packet the final configuration is a `decode`-fixpoint. -/
theorem feedAll_mid (L : ResourceUploadLimits) (head body : List Nat)
    (hh : head.length ≤ L.maxHeadSize) (hb : body.length ≤ L.maxBodySize)
    (hh32 : head.length < 4294967296) (hb32 : body.length < 4294967296)
    (ps : List (List Nat)) :
    ∀ (n : Nat) (st : ResourceUploadStage) (buf : List Nat)
      (em : List ResourceUploadFrame),
      n + ps.flatten.length ≤ (wire head body).length →
      ps.flatten = ((wire head body).drop n).take ps.flatten.length →
      MidInv L head body n st buf em →
      ∃ st' buf' fs,
        feedAll L st buf ps = .ok (st', buf', fs) ∧
        MidInv L head body (n + ps.flatten.length) st' buf' (em ++ fs) ∧
        (ps ≠ [] → decode L st' buf' = .pending st' buf') := by
  induction ps with
  | nil =>
      intro n st buf em hn hsl hm
      exact ⟨st, buf, [], by simp [feedAll], by simpa using hm,
        fun hne => absurd rfl hne⟩
  | cons p ps ih =>
      intro n st buf em hn hsl hm
      have hWlen := wire_length head body
      rw [List.flatten_cons] at hn hsl
      rw [List.length_append] at hn
      have hdec1 : ((wire head body).drop n).take (p ++ ps.flatten).length =
          ((wire head body).drop n).take p.length ++
          ((wire head body).drop (n + p.length)).take ps.flatten.length := by
        rw [List.length_append, List.take_add, List.drop_drop]
      rw [hdec1] at hsl
      have hlA : (((wire head body).drop n).take p.length).length = p.length := by
        simp only [List.length_take, List.length_drop]
        omega
      obtain ⟨hp1, hp2⟩ := List.append_inj hsl hlA.symm
      have hm1 : MidInv L head body (n + p.length) st (buf ++ p) em := by
        have h := midInv_append L head body n p.length st buf em (by omega) hm
        rwa [← hp1] at h
      obtain ⟨st1, buf1, fs1, hdr, hmid1, hfix1⟩ :=
        drain_mid L head body hh hb hh32 hb32 (n + p.length) (by omega)
          (4 * (buf ++ p).length + stageRank st) st (buf ++ p) em
          (le_refl _) hm1
      obtain ⟨st2, buf2, fs2, hfeed2, hmid2, hfixc⟩ :=
        ih (n + p.length) st1 buf1 (em ++ fs1) (by omega) hp2 hmid1
      refine ⟨st2, buf2, fs1 ++ fs2, ?_, ?_, ?_⟩
      · simp only [feedAll, hdr, hfeed2]
      · rw [List.flatten_cons, List.length_append,
          show n + (p.length + ps.flatten.length) =
            n + p.length + ps.flatten.length from by omega]
        simpa [List.append_assoc] using hmid2
      · intro _
        cases ps with
        | nil =>
            simp only [feedAll] at hfeed2
            injection hfeed2 with h
            injection h with h1 h2
            injection h2 with h2a h2b
            subst h1
            subst h2a
            exact hfix1
        | cons q qs => exact hfixc (by simp)

/-- At the end of the wire, a `decode`-fixpoint configuration holding the
invariant must be `Done` with an empty buffer, having emitted exactly one
header, body chunks concatenating to the body, and one end frame. -/
theorem mid_full_stuck_done (L : ResourceUploadLimits) (head body : List Nat)
    (hh : head.length ≤ L.maxHeadSize) (hb : body.length ≤ L.maxBodySize)
    (hh32 : head.length < 4294967296) (hb32 : body.length < 4294967296)
    (st : ResourceUploadStage) (buf : List Nat)
    (em : List ResourceUploadFrame)
    (hm : MidInv L head body (wire head body).length st buf em)
    (hfix : decode L st buf = .pending st buf) :
    st = .doneS ∧ buf = [] ∧
    ∃ cs : List (List Nat),
      em = .header head :: (cs.map .bodyChunk ++ [.endF]) ∧
      cs.flatten = body ∧
      ∀ c ∈ cs, c ≠ [] ∧ c.length ≤ L.flushStreamSize := by
  have hWlen := wire_length head body
  cases st with
  | needMagicStart =>
      obtain ⟨hbuf, hem⟩ := hm
      rw [List.take_length] at hbuf
      subst hbuf
      exfalso
      simp only [decode] at hfix
      rw [if_neg (show ¬((wire head body).length < 11) from by omega),
        if_neg (show ¬((wire head body).take 3 ≠ [113, 119, 113]) from
          fun hc => hc rfl),
        wire_drop_3, wire_drop_7,
        readU32BE_u32be_append head.length hh32,
        readU32BE_u32be_append body.length hb32,
        if_neg (Nat.not_lt.mpr hh), if_neg (Nat.not_lt.mpr hb),
        wire_drop_11] at hfix
      simp only [needHeaderStep] at hfix
      rw [if_neg (show ¬((head ++ body).length < head.length) from by
        rw [List.length_append]
        omega)] at hfix
      exact absurd hfix (by simp)
  | needHeader hl bl =>
      obtain ⟨h1, h2, h11, hbuf, hem⟩ := hm
      subst h1
      subst h2
      rw [List.take_length, wire_drop_11] at hbuf
      subst hbuf
      exfalso
      simp only [decode, needHeaderStep] at hfix
      rw [if_neg (show ¬((head ++ body).length < head.length) from by
        rw [List.length_append]
        omega)] at hfix
      exact absurd hfix (by simp)
  | streamBody r =>
      obtain ⟨hrle, hcle, hbuf, cs, hem, hflat, hcs⟩ := hm
      exfalso
      have hblen : buf.length = r := by
        rw [hbuf]
        simp only [List.length_drop, List.length_take]
        omega
      by_cases hr0 : r = 0
      · subst hr0
        simp [decode] at hfix
      · simp only [decode] at hfix
        rw [if_neg hr0,
          if_neg (show ¬(buf.length = 0) from by omega)] at hfix
        exact absurd hfix (by simp)
  | emitEnd => exact hm.elim
  | doneS => exact ⟨rfl, hm.2.1, hm.2.2⟩

/-- Once the decoder is `Done` it is a no-op: further packets just accumulate
in the buffer and no frame is ever emitted. -/
theorem feedAll_done (L : ResourceUploadLimits) (qs : List (List Nat)) :
    ∀ buf : List Nat,
      feedAll L .doneS buf qs = .ok (.doneS, buf ++ qs.flatten, []) := by
  induction qs with
  | nil =>
      intro buf
      simp [feedAll]
  | cons p ps ih =>
      intro buf
      have hd : drain L .doneS (buf ++ p) = .ok (.doneS, buf ++ p, []) :=
        drain_of_pending (by simp [decode])
      simp only [feedAll, hd, ih, List.flatten_cons]
      simp [List.append_assoc]

/-- Claim C4: for any well-formed wire frame (magic `qwq`, big-endian head
and body lengths within `max_head_size` and `max_body_size`, followed by the
head and body bytes), feeding the bytes to `ResourceUploadProtocol::decode`
under any partition into successive calls produces exactly one `Header`
event carrying the head bytes, then a sequence of nonempty `BodyChunk`
events each at most `flush_stream_size` bytes whose concatenated bytes equal
the body, then exactly one `End` event; after `End` every further decode
call emits nothing. -/
theorem codec_framing_totality (L : ResourceUploadLimits)
    (head body : List Nat)
    (hh : head.length ≤ L.maxHeadSize) (hb : body.length ≤ L.maxBodySize)
    (hh32 : head.length < 4294967296) (hb32 : body.length < 4294967296)
    (ps : List (List Nat)) (hps : ps.flatten = wire head body) :
    ∃ cs : List (List Nat),
      feedAll L .needMagicStart [] ps =
        .ok (.doneS, [], .header head :: (cs.map .bodyChunk ++ [.endF])) ∧
      cs.flatten = body ∧
      (∀ c ∈ cs, c ≠ [] ∧ c.length ≤ L.flushStreamSize) ∧
      (∀ qs : List (List Nat),
        feedAll L .doneS [] qs = .ok (.doneS, qs.flatten, [])) := by
  have hWlen := wire_length head body
  have hpsne : ps ≠ [] := by
    intro h
    subst h
    have hl := congrArg List.length hps
    simp only [List.flatten_nil, List.length_nil] at hl
    omega
  obtain ⟨st', buf', fs, hfeed, hmid, hfixf⟩ :=
    feedAll_mid L head body hh hb hh32 hb32 ps 0 .needMagicStart [] []
      (by rw [hps]; omega) (by rw [hps]; simp) ⟨by simp, rfl⟩
  have hfix := hfixf hpsne
  rw [show (0 : Nat) + ps.flatten.length = (wire head body).length from by
    rw [hps]
    omega] at hmid
  obtain ⟨hst, hbuf, cs, hemshape, hflat, hbound⟩ :=
    mid_full_stuck_done L head body hh hb hh32 hb32 st' buf' ([] ++ fs)
      hmid hfix
  subst hst
  subst hbuf
  refine ⟨cs, ?_, hflat, hbound, fun qs => by simpa using feedAll_done L qs []⟩
  rw [hfeed]
  simp only [List.nil_append] at hemshape
  rw [hemshape]

theorem codec_framing_totality_witness :
    ∃ cs : List (List Nat),
      feedAll ⟨8192, 16, 16, by omega⟩ .needMagicStart []
        [[113], [119, 113], [0, 0, 0, 1], [0, 0, 0, 2], [7], [9], [8]] =
        .ok (.doneS, [], .header [7] :: (cs.map .bodyChunk ++ [.endF])) ∧
      cs.flatten = [9, 8] ∧
      (∀ c ∈ cs, c ≠ [] ∧ c.length ≤ 8192) ∧
      (∀ qs : List (List Nat),
        feedAll ⟨8192, 16, 16, by omega⟩ .doneS [] qs =
          .ok (.doneS, qs.flatten, [])) :=
  codec_framing_totality ⟨8192, 16, 16, by omega⟩ [7] [9, 8]
    (by decide) (by decide) (by decide) (by decide)
    [[113], [119, 113], [0, 0, 0, 1], [0, 0, 0, 2], [7], [9], [8]]
    (by decide)

end EchoSpec
